import Mathlib

/-!
Verification of the frame-extraction and normalization engine of the
Zerograft repository (source: `backend/app/services/stages/stage_7_post_processing.py`).

Images are shallowly embedded as lists of rows:
  * grayscale / binary uint8 images (`Img`) carry natural-number pixel values
    (the source works with values 0..255);
  * BGR color images (`CImg`) carry channel triples `(b, g, r)`;
  * BGRA images (`AImg`) carry quadruples `(b, g, r, a)`.

Python floats are modelled as exact rationals; every threshold comparison in
the source (`0.5 *`, `0.8 *`, `1.3 *`, `0.15 *`, `< 0.10`) is represented by
the equivalent exact integer comparison.  `numpy` arrays are rectangular; the
`isRectB` predicate records that side condition where a theorem needs it.
-/

namespace Zerograft

/-- Grayscale or binary image: rows of uint8 pixel values. -/
abbrev Img := List (List Nat)

/-- One BGR pixel `(b, g, r)`. -/
abbrev BGRPix := Nat × Nat × Nat

/-- BGR color image. -/
abbrev CImg := List (List BGRPix)

/-- One BGRA pixel `(b, g, r, a)`. -/
abbrev BGRAPix := Nat × Nat × Nat × Nat

/-- BGRA color image. -/
abbrev AImg := List (List BGRAPix)

/-- Height of an image (number of rows). -/
def imgH (img : List (List α)) : Nat := img.length

/-- Width of an image (length of the first row; `numpy` arrays are rectangular). -/
def imgW (img : List (List α)) : Nat := (img.headD []).length

/-- All rows have the width of the image (`numpy` rectangularity). -/
def isRectB (img : List (List α)) : Bool := img.all (fun row => row.length == imgW img)

/-- Pixel access at integer coordinates with a default outside the image. -/
def getPix (img : List (List α)) (y x : Int) (d : α) : α :=
  if 0 ≤ y ∧ 0 ≤ x then (img.getD y.toNat []).getD x.toNat d else d

/-- Build an `h × w` image from a pixel function. -/
def mkImg (h w : Nat) (f : Nat → Nat → α) : List (List α) :=
  (List.range h).map (fun y => (List.range w).map (f y))

/-- `numpy`-style rectangle slicing `img[y1:y2, x1:x2]`. -/
def cropRect (img : List (List α)) (y1 y2 x1 x2 : Nat) : List (List α) :=
  ((img.drop y1).take (y2 - y1)).map (fun r => (r.drop x1).take (x2 - x1))

/-- Number of positive (foreground) pixels, `np.sum(img > 0)`. -/
def countPos (img : Img) : Nat :=
  (img.map (fun row => row.countP (fun v => decide (0 < v)))).sum

/-- Whether the image has any positive pixel (`cv2.findContours` returns a
nonempty contour list exactly when the binary image has a foreground pixel). -/
def anyPos (img : Img) : Bool :=
  img.any (fun row => row.any (fun v => decide (0 < v)))

theorem imgH_mkImg (h w : Nat) (f : Nat → Nat → α) : imgH (mkImg h w f) = h := by
  simp [imgH, mkImg]

theorem length_row_mkImg (h w : Nat) (f : Nat → Nat → α) (row : List α)
    (hrow : row ∈ mkImg h w f) : row.length = w := by
  simp only [mkImg, List.mem_map] at hrow
  obtain ⟨y, _, rfl⟩ := hrow
  simp

theorem imgW_mkImg (h w : Nat) (f : Nat → Nat → α) (hh : 0 < h) :
    imgW (mkImg h w f) = w := by
  cases h with
  | zero => omega
  | succ n => simp [imgW, mkImg, List.range_succ_eq_map]

theorem getD_map_range (n : Nat) (g : Nat → α) (i : Nat) (d : α) (hi : i < n) :
    ((List.range n).map g).getD i d = g i := by
  rw [List.getD_eq_getElem?_getD, List.getElem?_map, List.getElem?_range hi]
  rfl

theorem getPix_mkImg (h w : Nat) (f : Nat → Nat → α) (d : α) (y x : Nat)
    (hy : y < h) (hx : x < w) :
    getPix (mkImg h w f) (y : Int) (x : Int) d = f y x := by
  simp only [getPix, mkImg]
  rw [if_pos (by omega), Int.toNat_ofNat, Int.toNat_ofNat,
    getD_map_range h _ y [] hy, getD_map_range w _ x d hx]

theorem getPix_out_left (img : List (List α)) (y x : Int) (d : α)
    (hyx : ¬ (0 ≤ y ∧ 0 ≤ x)) : getPix img y x d = d := by
  simp [getPix, hyx]

/-! ### Noise removal (source lines 42-91)

`cv2.getStructuringElement(cv2.MORPH_ELLIPSE, (3, 3))` is the 3×3 cross
(center plus 4-neighbors); `kernel_size` is 3 at every call site of
`remove_noise_morphological`, so the kernel is fixed to that cross here.
Grayscale erosion takes the minimum over the kernel with the OpenCV default
constant border (+∞, modelled by the `uint8` maximum 255); dilation takes the
maximum with the −∞ border (0). -/

/-- `cv2.erode` with the 3×3 elliptical (cross) kernel. -/
def erode3 (img : Img) : Img :=
  mkImg (imgH img) (imgW img) (fun y x =>
    min (getPix img (y : Int) (x : Int) 255)
      (min (getPix img ((y : Int) - 1) (x : Int) 255)
        (min (getPix img ((y : Int) + 1) (x : Int) 255)
          (min (getPix img (y : Int) ((x : Int) - 1) 255)
            (getPix img (y : Int) ((x : Int) + 1) 255)))))

/-- `cv2.dilate` with the 3×3 elliptical (cross) kernel. -/
def dilate3 (img : Img) : Img :=
  mkImg (imgH img) (imgW img) (fun y x =>
    max (getPix img (y : Int) (x : Int) 0)
      (max (getPix img ((y : Int) - 1) (x : Int) 0)
        (max (getPix img ((y : Int) + 1) (x : Int) 0)
          (max (getPix img (y : Int) ((x : Int) - 1) 0)
            (getPix img (y : Int) ((x : Int) + 1) 0)))))

/-- `remove_noise_morphological`: opening (erosion then dilation) followed by
closing (dilation then erosion), both with the 3×3 elliptical kernel. -/
def remove_noise_morphological (binary : Img) : Img :=
  erode3 (dilate3 (dilate3 (erode3 binary)))

/-- The 8-connected neighbors of a pixel that have nonnegative coordinates
(coordinates beyond the image read as background through `getPix`). -/
def neighbors8 (p : Nat × Nat) : List (Nat × Nat) :=
  (([-1, 0, 1] : List Int).flatMap (fun dy =>
      ([-1, 0, 1] : List Int).map (fun dx => (dy, dx)))).filterMap
    (fun q =>
      if q = ((0 : Int), (0 : Int)) then none
      else
        let ny := (p.1 : Int) + q.1
        let nx := (p.2 : Int) + q.2
        if 0 ≤ ny ∧ 0 ≤ nx then some (ny.toNat, nx.toNat) else none)

/-- Fuel-bounded breadth-first traversal collecting an 8-connected component
of foreground pixels, mirroring the labelling of
`cv2.connectedComponentsWithStats(binary, connectivity=8)`. -/
def ccBfs (img : Img) : Nat → List (Nat × Nat) → List (Nat × Nat) → List (Nat × Nat)
  | 0, _, visited => visited
  | _ + 1, [], visited => visited
  | fuel + 1, p :: rest, visited =>
      if p ∈ visited then ccBfs img fuel rest visited
      else if 0 < getPix img (p.1 : Int) (p.2 : Int) 0 then
        ccBfs img fuel (rest ++ neighbors8 p) (p :: visited)
      else ccBfs img fuel rest visited

/-- The 8-connected component of the foreground pixel at `(y, x)` (empty when
that pixel is background).  The fuel bounds total queue traffic: at most
`1 + 8 · h · w` pixels are ever enqueued. -/
def componentOf (img : Img) (y x : Nat) : List (Nat × Nat) :=
  ccBfs img (9 * (imgH img * imgW img) + 9) [(y, x)] []

/-- Default of the `min_area` parameter of `remove_small_components`
(source line 69). -/
def remove_small_components_default_min_area : Nat := 100

/-- `remove_small_components`: keep (at value 255) exactly the foreground
pixels whose 8-connected component has area at least `min_area`; the source
writes 255 over `labels == i` for every retained label `i`. -/
def remove_small_components (binary : Img) (min_area : Nat) : Img :=
  mkImg (imgH binary) (imgW binary) (fun y x =>
    if 0 < getPix binary (y : Int) (x : Int) 0 ∧
        min_area ≤ (componentOf binary y x).length then 255 else 0)

/-! ### Frame border removal (source lines 96-176) -/

/-- `cv2.cvtColor(·, cv2.COLOR_BGR2GRAY)` on one `uint8` pixel: OpenCV's
bit-exact fixed-point form of `0.299 R + 0.587 G + 0.114 B`. -/
def bgr2gray (p : BGRPix) : Nat :=
  (p.1 * 1868 + p.2.1 * 9617 + p.2.2 * 4899 + 8192) / 16384

/-- Grayscale conversion of a BGR image. -/
def cvtGray (img : CImg) : Img := img.map (List.map bgr2gray)

/-- `is_border_line`: a line is a border when `np.std(pixels) < 15` and
`np.mean(pixels) < 80`.  With `n` pixels of sum `s` and sum of squares `s2`,
`std < 15 ↔ n·s2 < s² + 225·n²` and `mean < 80 ↔ s < 80·n` (exactly, over the
rationals); an empty line is not a border.  `np.max` is computed by the source
but unused. -/
def is_border_line (ps : List Nat) : Bool :=
  decide (ps.length * (ps.map (fun v => v * v)).sum <
      (ps.sum) ^ 2 + 225 * ps.length ^ 2) &&
    decide (ps.sum < 80 * ps.length)

/-- Column `x` of a grayscale image. -/
def colOf (img : Img) (x : Nat) : List Nat := img.map (fun row => row.getD x 0)

/-- The indices visited by Python's `range(h - 1, max(h - m - 1, 0), -1)`:
the last `min m (h - 1)` indices, from `h - 1` downward. -/
def botRange (h m : Nat) : List Nat :=
  (List.range ((h - 1) - (h - m - 1))).map (fun i => h - 1 - i)

/-- Number of consecutive border lines at the start of a scan window. -/
def borderCount (lines : List (List Nat)) : Nat :=
  (lines.takeWhile is_border_line).length

/-- Top-edge scan window: the first `min mbw h` rows. -/
def topRowsW (gray : Img) (mbw : Nat) : List (List Nat) :=
  (List.range (min mbw (imgH gray))).map (fun y => gray.getD y [])

/-- Bottom-edge scan window: rows `h-1` downward. -/
def botRowsW (gray : Img) (mbw : Nat) : List (List Nat) :=
  (botRange (imgH gray) mbw).map (fun y => gray.getD y [])

/-- Left-edge scan window: the first `min mbw w` columns. -/
def leftColsW (gray : Img) (mbw : Nat) : List (List Nat) :=
  (List.range (min mbw (imgW gray))).map (fun x => colOf gray x)

/-- Right-edge scan window: columns `w-1` downward. -/
def rightColsW (gray : Img) (mbw : Nat) : List (List Nat) :=
  (botRange (imgW gray) mbw).map (fun x => colOf gray x)

/-- `remove_frame_borders` (default `max_border_width = 5`): images smaller
than 20×20 are returned untouched; otherwise each edge is scanned inward up
to `max_border_width` lines, stopping at the first non-border line, and the
image is cropped to exclude the confirmed border lines. -/
def remove_frame_borders (image : CImg) (max_border_width : Nat := 5) : CImg :=
  let h := imgH image
  let w := imgW image
  if h < 20 ∨ w < 20 then image
  else
    let gray := cvtGray image
    let top_crop := borderCount (topRowsW gray max_border_width)
    let bottom_crop := h - borderCount (botRowsW gray max_border_width)
    let left_crop := borderCount (leftColsW gray max_border_width)
    let right_crop := w - borderCount (rightColsW gray max_border_width)
    if 0 < top_crop ∨ bottom_crop < h ∨ 0 < left_crop ∨ right_crop < w then
      cropRect image top_crop bottom_crop left_crop right_crop
    else image

/-! ### Background removal (source lines 181-300) -/

/-- A pixel is white when all three color channels are `≥ threshold`. -/
def isWhitePix (threshold : Nat) (p : BGRPix) : Bool :=
  decide (threshold ≤ p.1) && decide (threshold ≤ p.2.1) && decide (threshold ≤ p.2.2)

/-- The sharp alpha matte: 0 on white pixels, 255 elsewhere
(`np.where(is_white, 0, 255)`). -/
def sharpAlpha (image : CImg) (threshold : Nat) : Img :=
  image.map (List.map (fun p => if isWhitePix threshold p then 0 else 255))

/-- OpenCV `BORDER_REFLECT_101` index folding for indices in `[-1, len]`
(a length-1 axis always resolves to index 0). -/
def reflect101 (len : Nat) (i : Int) : Nat :=
  if len ≤ 1 then 0
  else if i < 0 then (-i).toNat
  else if (len : Int) ≤ i then 2 * (len - 1) - i.toNat
  else i.toNat

/-- `cv2.GaussianBlur(·, (3, 3), 0)` on `uint8`: the bit-exact separable
kernel `[1/4, 1/2, 1/4]` in 8-bit fixed point (weights 64/128/64, scale
`2^16`, round-half-up), with `BORDER_REFLECT_101`. -/
def blur3 (a : Img) : Img :=
  let h := imgH a
  let w := imgW a
  mkImg h w (fun y x =>
    let g : Int → Int → Nat := fun dy dx =>
      getPix a ((reflect101 h ((y : Int) + dy) : Nat) : Int)
        ((reflect101 w ((x : Int) + dx) : Nat) : Int) 0
    (64 * 64 * g (-1) (-1) + 64 * 128 * g (-1) 0 + 64 * 64 * g (-1) 1 +
        128 * 64 * g 0 (-1) + 128 * 128 * g 0 0 + 128 * 64 * g 0 1 +
        64 * 64 * g 1 (-1) + 64 * 128 * g 1 0 + 64 * 64 * g 1 1 +
        32768) / 65536)

/-- The alpha plane of `remove_white_background`: 0 on white pixels and 255
elsewhere; with feathering the matte is dilated with the elliptical
`(2·feather+1)`-kernel, Gaussian blurred, and maxed with the sharp matte.
The kernels are instantiated at the default `feather = 1` (the 3×3 cross and
the 3×3 blur), the only value used in this repository. -/
def rwbAlpha (image : CImg) (threshold feather : Nat) : Img :=
  let sharp := sharpAlpha image threshold
  if 0 < feather then
    let blurred := blur3 (dilate3 sharp)
    mkImg (imgH image) (imgW image) (fun y x =>
      max (getPix blurred (y : Int) (x : Int) 0)
        (getPix sharp (y : Int) (x : Int) 0))
  else sharp

/-- `remove_white_background` (source defaults `threshold = 240`,
`feather = 1`): the input converted to BGRA with the alpha plane
`rwbAlpha`. -/
def remove_white_background (image : CImg) (threshold : Nat := 240)
    (feather : Nat := 1) : AImg :=
  List.zipWith (fun row arow =>
      List.zipWith (fun (p : BGRPix) a => (p.1, p.2.1, p.2.2, a)) row arow)
    image (rwbAlpha image threshold feather)

/-- `make_sprite_transparent` as invoked by `normalize_frames`
(`method = "white"`): `remove_white_background` with the given threshold and
the default feather of 1. -/
def make_sprite_transparent (sprite : CImg) (threshold : Nat := 240) : AImg :=
  remove_white_background sprite threshold 1

/-- Alpha channel of a BGRA image at `(y, x)`. -/
def alphaAt (img : AImg) (y x : Nat) : Nat :=
  (getPix img (y : Int) (x : Int) (0, 0, 0, 0)).2.2.2

/-! ### Pivot detection (source lines 398-475) -/

/-- Decidable substring test: `needle` occurs contiguously in `hay`
(Python's `a in s`). -/
def containsSub (needle : List Char) : List Char → Bool
  | [] => needle.isEmpty
  | c :: rest => needle.isPrefixOf (c :: rest) || containsSub needle rest

/-- The airborne action hints of `calculate_smart_pivot`. -/
def airborne_actions : List String :=
  ["jump", "fly", "leap", "hover", "fall", "aerial", "air"]

/-- `any(a in action_type.lower() for a in airborne_actions)`.  Python's
`str.lower` is modelled character-wise (`Char.toLower`), which agrees with it
on the ASCII hint strings this pipeline passes. -/
def hasAirborneKeyword (action_type : String) : Bool :=
  airborne_actions.any (fun a =>
    containsSub a.toList (action_type.toList.map Char.toLower))

/-- `detect_airborne_pose` (default `bottom_threshold = 0.15`):
`bottom_rows = int(h * 0.15)` is `⌊3·h/20⌋` exactly; the pose is airborne when
the window is nonempty, the mask has foreground, and strictly less than 10% of
the foreground lies in the bottom window (`bottom/total < 0.10`, i.e.
`10·bottom < total`). -/
def detect_airborne_pose (sprite_mask : Img) : Bool :=
  let h := sprite_mask.length
  let bottom_rows := 3 * h / 20
  if bottom_rows < 1 then false
  else
    let total := countPos sprite_mask
    if total = 0 then false
    else decide (10 * countPos (sprite_mask.drop (h - bottom_rows)) < total)

/-- Zeroth image moment `m00`: the sum of all mask values (`cv2.moments` on a
`uint8` mask weighs by the pixel value, 255 on foreground). -/
def m00 (mask : Img) : Nat := (mask.map List.sum).sum

/-- First moment in `x`: `m10 = Σ x · value`. -/
def m10 (mask : Img) : Nat :=
  (mask.map (fun row => (row.enum.map (fun p => p.1 * p.2)).sum)).sum

/-- First moment in `y`: `m01 = Σ y · value`. -/
def m01 (mask : Img) : Nat :=
  ((mask.map List.sum).enum.map (fun p => p.1 * p.2)).sum

/-- `calculate_smart_pivot`: airborne when the action hints so or the pose
detector says so; airborne pivots are the normalized center of mass (falling
back to `(0.5, 0.5)` when `m00 = 0`), grounded pivots are `(0.5, 1.0)`. -/
def calculate_smart_pivot (sprite_mask : Img) (action_type : String) :
    ℚ × ℚ × Bool :=
  let is_action_airborne := hasAirborneKeyword action_type
  let is_pose_airborne := detect_airborne_pose sprite_mask
  let is_airborne := is_action_airborne || is_pose_airborne
  if is_airborne then
    if 0 < m00 sprite_mask then
      let h := imgH sprite_mask
      let w := imgW sprite_mask
      (((m10 sprite_mask : ℚ) / (m00 sprite_mask : ℚ)) / (w : ℚ),
        ((m01 sprite_mask : ℚ) / (m00 sprite_mask : ℚ)) / (h : ℚ), true)
    else ((1 : ℚ) / 2, (1 : ℚ) / 2, true)
  else ((1 : ℚ) / 2, (1 : ℚ), false)

/-! ### Contour-based sprite counting (source lines 515-582)

The source first binarizes the canvas, removes grid lines, cleans noise, and
runs `cv2.connectedComponentsWithStats`; those library calls produce one
statistics row `(area, x, y, w, h)` per component, modelled here as the
`stats` input of the filtering loop, which is the part the claims address. -/

/-- One row of `cv2.connectedComponentsWithStats` statistics. -/
structure CompStat where
  area : Nat
  x : Nat
  y : Nat
  w : Nat
  h : Nat
deriving DecidableEq

/-- Default of the `min_sprite_area` parameter of `count_sprites_by_contour`
(source line 517); `extract_frames_hybrid` also passes 500 explicitly. -/
def count_sprites_default_min_sprite_area : Nat := 500

/-- The component filter of `count_sprites_by_contour`: skip components with
`area < min_sprite_area`, skip components with `area > (w·h)//4`, and collect
the bounding boxes of the rest.  `min_expected_size = (w·h)//64` is computed
by the source but never used in the filter. -/
def count_sprites_filter (w h min_sprite_area : Nat) (stats : List CompStat) :
    List (Nat × Nat × Nat × Nat) :=
  let _min_expected_size := w * h / 64
  let max_expected_size := w * h / 4
  stats.filterMap (fun s =>
    if s.area < min_sprite_area then none
    else if max_expected_size < s.area then none
    else some (s.x, s.y, s.w, s.h))

/-- Modelled from the claim's words (spec §4.3 item 5): keep a component
exactly when its area lies between `1/64` and `1/4` of the total canvas area.
This is the spec-side definition used to compare the claim against
`count_sprites_filter`. -/
def specAreaBandKeep (total_area area : Nat) : Bool :=
  decide (total_area / 64 ≤ area) && decide (area ≤ total_area / 4)

/-! ### Grid-based frame extraction (source lines 855-991) -/

/-- A single extracted frame with metadata (source lines 17-28). -/
structure ExtractedFrame where
  index : Nat
  image : CImg
  x : Nat
  y : Nat
  width : Nat
  height : Nat
  pivot_x : ℚ
  pivot_y : ℚ
  is_airborne : Bool
deriving DecidableEq

/-- Result of spritesheet post-processing (source lines 31-37). -/
structure PostProcessingResult where
  frames : List ExtractedFrame
  frame_width : Nat
  frame_height : Nat
  pivots : List (ℚ × ℚ)
deriving DecidableEq

/-- `cv2.threshold(gray, 250, 255, cv2.THRESH_BINARY_INV)`: 0 where the pixel
exceeds 250, else 255. -/
def thresholdInv250 (img : Img) : Img :=
  img.map (List.map (fun v => if 250 < v then 0 else 255))

/-- The foreground pixel coordinates `(y, x)` of a binary image. -/
def posList (img : Img) : List (Nat × Nat) :=
  img.enum.flatMap (fun yr =>
    yr.2.enum.filterMap (fun xv => if 0 < xv.2 then some (yr.1, xv.1) else none))

/-- The border-stripped color cell at grid position `(r, c)`. -/
def gridCell (grid_image : CImg) (grid_rows grid_cols r c : Nat) : CImg :=
  let cell_w := imgW grid_image / grid_cols
  let cell_h := imgH grid_image / grid_rows
  let x1 := c * cell_w
  let y1 := r * cell_h
  remove_frame_borders (cropRect grid_image y1 (y1 + cell_h) x1 (x1 + cell_w))

/-- The cleaned binary mask of a grid cell: rebinarize the border-stripped
cell, then (when `apply_noise_removal`) morphological cleanup followed by
removal of components below 50 px. -/
def cellCleaned (grid_image : CImg) (grid_rows grid_cols : Nat)
    (apply_noise_removal : Bool) (r c : Nat) : Img :=
  let cb := thresholdInv250 (cvtGray (gridCell grid_image grid_rows grid_cols r c))
  if apply_noise_removal then
    remove_small_components (remove_noise_morphological cb) 50
  else cb

/-- Process one grid cell: `none` when the cleaned mask has no contour
(no foreground pixel); otherwise crop the merged bounding box padded by 5 px
(clamped to the nominal cell size, as the source does) and compute the smart
pivot on the cropped mask. -/
def processCell (grid_image : CImg) (grid_rows grid_cols : Nat)
    (action_type : String) (apply_noise_removal : Bool) (r c : Nat) :
    Option ExtractedFrame :=
  let cell_w := imgW grid_image / grid_cols
  let cell_h := imgH grid_image / grid_rows
  let x1 := c * cell_w
  let y1 := r * cell_h
  let cell := gridCell grid_image grid_rows grid_cols r c
  let cell_binary := cellCleaned grid_image grid_rows grid_cols apply_noise_removal r c
  if anyPos cell_binary then
    let ps := posList cell_binary
    let bx := (ps.map Prod.snd).foldl min cell_w
    let by' := (ps.map Prod.fst).foldl min cell_h
    let bxmax := (ps.map Prod.snd).foldl max 0
    let bymax := (ps.map Prod.fst).foldl max 0
    let sx1 := bx - 5
    let sy1 := by' - 5
    let sx2 := min cell_w (bxmax + 1 + 5)
    let sy2 := min cell_h (bymax + 1 + 5)
    let sprite := cropRect cell sy1 sy2 sx1 sx2
    let sprite_mask := cropRect cell_binary sy1 sy2 sx1 sx2
    let piv := calculate_smart_pivot sprite_mask action_type
    some { index := r * grid_cols + c, image := sprite, x := x1 + sx1,
           y := y1 + sy1, width := sx2 - sx1, height := sy2 - sy1,
           pivot_x := piv.1, pivot_y := piv.2.1, is_airborne := piv.2.2 }
  else none

/-- `extract_frames` (grid-based extraction).  The source walks cells in
row-major order and breaks the inner column loop as soon as
`frame_idx = row·cols + col` reaches `expected_count`; since `frame_idx` is
increasing along a row, that break is the `takeWhile` below (every later row
breaks at its first column).  Empty cells contribute no frame.  The
whole-canvas binary the source computes before the loop is dead for the
per-cell path (each cell is rebinarized from scratch) and is omitted. -/
def extract_frames (grid_image : CImg) (expected_count grid_rows grid_cols : Nat)
    (action_type : String := "unknown") (apply_noise_removal : Bool := true) :
    PostProcessingResult :=
  let frames := (List.range grid_rows).flatMap (fun row =>
    ((List.range grid_cols).takeWhile
        (fun col => decide (row * grid_cols + col < expected_count))).filterMap
      (fun col =>
        processCell grid_image grid_rows grid_cols action_type
          apply_noise_removal row col))
  { frames := frames,
    frame_width := (frames.map ExtractedFrame.width).foldr max 0,
    frame_height := (frames.map ExtractedFrame.height).foldr max 0,
    pivots := frames.map (fun f => (f.pivot_x, f.pivot_y)) }

/-- Whether the cell with row-major index `i` yields a frame. -/
def cellNonEmptyIdx (grid_image : CImg) (grid_rows grid_cols : Nat)
    (apply_noise_removal : Bool) (i : Nat) : Bool :=
  anyPos (cellCleaned grid_image grid_rows grid_cols apply_noise_removal
    (i / grid_cols) (i % grid_cols))

/-! ### Hybrid extraction arbitration (source lines 756-851) -/

/-- Which extractor the arbitrator selects. -/
inductive Extractor
  | contour
  | grid
deriving DecidableEq

/-- The `use_contour` decision chain of `extract_frames_hybrid`.  The float
comparisons are exact here: `c < 0.5·e ↔ 2c < e`, `c ≥ 0.8·e ↔ 5c ≥ 4e`,
`g > 1.3·e ↔ 10g > 13e`. -/
def hybrid_use_contour (expected_count gemini_frame_count contour_count : Nat) :
    Bool :=
  let gemini_diff := Nat.dist gemini_frame_count expected_count
  let contour_diff := Nat.dist contour_count expected_count
  let contour_failed := decide (2 * contour_count < expected_count)
  if contour_failed then false
  else if contour_count = expected_count then true
  else if contour_diff < gemini_diff ∧ 4 * expected_count ≤ 5 * contour_count then
    true
  else if 13 * expected_count < 10 * gemini_frame_count ∧
      4 * expected_count ≤ 5 * contour_count then true
  else false

/-- The final extractor choice: contour extraction runs only when
`use_contour` holds and the contour count is positive. -/
def hybrid_extractor (expected_count gemini_frame_count contour_count : Nat) :
    Extractor :=
  if hybrid_use_contour expected_count gemini_frame_count contour_count &&
      decide (0 < contour_count) then .contour else .grid

/-- `math.ceil(math.sqrt n)`, exactly. -/
def ceil_sqrt (n : Nat) : Nat :=
  if Nat.sqrt n * Nat.sqrt n = n then Nat.sqrt n else Nat.sqrt n + 1

/-- The grid dimensions used by the grid fallback of
`extract_frames_hybrid`: only when the Gemini frame count differs from the
expected count does the source check whether Gemini's grid can hold
`expected_count` cells, recomputing a square `ceil(sqrt(expected_count))`
grid when it cannot. -/
def hybrid_grid_dims (expected_count gemini_rows gemini_cols gemini_frame_count :
    Nat) : Nat × Nat :=
  if gemini_frame_count ≠ expected_count then
    if expected_count ≤ gemini_rows * gemini_cols then (gemini_rows, gemini_cols)
    else (ceil_sqrt expected_count, ceil_sqrt expected_count)
  else (gemini_rows, gemini_cols)

/-! ### Frame normalization (source lines 994-1045) -/

/-- The clipped source/destination rectangles of `normalize_frames`
(coordinates over `ℤ`; Python's `//` is floor division). -/
structure ClipRects where
  src_x1 : Int
  src_y1 : Int
  src_x2 : Int
  src_y2 : Int
  dst_x1 : Int
  dst_y1 : Int
  dst_x2 : Int
  dst_y2 : Int
deriving DecidableEq

/-- Compute the clip rectangles for one frame: center the sprite when
airborne, bottom-center it when grounded, then clamp both rectangles to the
canvas and source bounds. -/
def normClip (target_w target_h actual_w actual_h : Nat) (airborne : Bool) :
    ClipRects :=
  let dx : Int := ((target_w : Int) - (actual_w : Int)).fdiv 2
  let dy : Int :=
    if airborne then ((target_h : Int) - (actual_h : Int)).fdiv 2
    else (target_h : Int) - (actual_h : Int)
  let src_x1 := max 0 (-dx)
  let src_y1 := max 0 (-dy)
  let src_x2 := min (actual_w : Int) ((target_w : Int) - dx)
  let src_y2 := min (actual_h : Int) ((target_h : Int) - dy)
  let dst_x1 := max 0 dx
  let dst_y1 := max 0 dy
  { src_x1 := src_x1, src_y1 := src_y1, src_x2 := src_x2, src_y2 := src_y2,
    dst_x1 := dst_x1, dst_y1 := dst_y1,
    dst_x2 := dst_x1 + (src_x2 - src_x1), dst_y2 := dst_y1 + (src_y2 - src_y1) }

/-- Normalize one frame: matte it, allocate a transparent `target_h × target_w`
canvas, and composite the clipped source rectangle at the clipped destination
rectangle (the composite is skipped when the destination is empty). -/
def normalize_one (target_w target_h : Nat) (frame : ExtractedFrame) : AImg :=
  let frame_rgba := make_sprite_transparent frame.image 240
  let cr := normClip target_w target_h (imgW frame_rgba) (imgH frame_rgba)
    frame.is_airborne
  mkImg target_h target_w (fun y x =>
    if cr.dst_x1 < cr.dst_x2 ∧ cr.dst_y1 < cr.dst_y2 ∧
        cr.dst_y1 ≤ (y : Int) ∧ (y : Int) < cr.dst_y2 ∧
        cr.dst_x1 ≤ (x : Int) ∧ (x : Int) < cr.dst_x2 then
      getPix frame_rgba (cr.src_y1 + ((y : Int) - cr.dst_y1))
        (cr.src_x1 + ((x : Int) - cr.dst_x1)) (0, 0, 0, 0)
    else (0, 0, 0, 0))

/-- `normalize_frames`: normalize every frame to the target size. -/
def normalize_frames (frames : List ExtractedFrame) (target_w target_h : Nat) :
    List AImg :=
  frames.map (normalize_one target_w target_h)

/-! ## Claim C1: the arbitration decision table -/

/-- The arbitration property of claim C1, amended: the decision table holds
as claimed, and the square grid is recomputed exactly when the Gemini frame
count differs from the expected count *and* Gemini's grid cannot hold
`expected_count` cells. -/
def hybridDecisionProp (e gr gc g c : Nat) : Prop :=
  (hybrid_extractor e g c = Extractor.contour ↔
    ¬ 2 * c < e ∧
      (c = e ∨ (Nat.dist c e < Nat.dist g e ∧ 4 * e ≤ 5 * c) ∨
        (13 * e < 10 * g ∧ 4 * e ≤ 5 * c))) ∧
  hybrid_grid_dims e gr gc g =
    (if g ≠ e ∧ gr * gc < e then (ceil_sqrt e, ceil_sqrt e) else (gr, gc))

/-- C1 (amended).  For `expected_count > 0` the arbitrator evaluates the
decision table in order — grid when `contour < 0.5·expected`; else contour on
an exact match; else contour when contour is strictly closer to expected than
Gemini and `contour ≥ 0.8·expected`; else contour when
`gemini > 1.3·expected` and `contour ≥ 0.8·expected`; else grid — and the
grid fallback recomputes a square `ceil(sqrt(expected))` grid exactly when
`gemini_frame_count ≠ expected_count` and `gemini_rows · gemini_cols <
expected_count`. -/
theorem C1_hybrid_arbitration (e gr gc g c : Nat) (he : 0 < e) :
    hybridDecisionProp e gr gc g c := by
  constructor
  · simp only [hybrid_extractor, hybrid_use_contour]
    by_cases h1 : 2 * c < e
    · simp [h1]
    · by_cases h2 : c = e
      · have hc : 0 < c := by omega
        simp [h1, h2, hc]
        omega
      · by_cases h3 : Nat.dist c e < Nat.dist g e ∧ 4 * e ≤ 5 * c
        · have hc : 0 < c := by omega
          simp [h1, h2, h3, hc]
        · by_cases h4 : 13 * e < 10 * g ∧ 4 * e ≤ 5 * c
          · have hc : 0 < c := by omega
            simp [h1, h2, h3, h4, hc]
          · simp [h1, h2, h3, h4]
  · simp only [hybrid_grid_dims]
    by_cases hg : g ≠ e
    · by_cases hge : e ≤ gr * gc
      · rw [if_pos hg, if_pos hge, if_neg (by omega)]
      · rw [if_pos hg, if_neg hge, if_pos (by constructor <;> omega)]
    · rw [if_neg hg, if_neg (by tauto)]

/-- C1 counterexample to the claim as stated: with
`(expected, gemini_rows, gemini_cols, gemini_count, contour) = (5, 2, 2, 5, 1)`
the arbitrator takes the grid fallback and `gemini_rows · gemini_cols = 4 < 5
= expected_count`, yet the grid is *not* recomputed to the square
`ceil(sqrt 5) = 3` grid, because the source only recomputes when
`gemini_frame_count != expected_count`. -/
theorem C1_counterexample :
    hybrid_extractor 5 5 1 = Extractor.grid ∧ 2 * 2 < 5 ∧
      hybrid_grid_dims 5 2 2 5 = (2, 2) ∧
      hybrid_grid_dims 5 2 2 5 ≠ (ceil_sqrt 5, ceil_sqrt 5) := by
  have hs : Nat.sqrt 5 = 2 := by
    have h1 : 2 ≤ Nat.sqrt 5 := Nat.le_sqrt.mpr (by norm_num)
    have h2 : Nat.sqrt 5 < 3 := Nat.sqrt_lt.mpr (by norm_num)
    omega
  have hcs : ceil_sqrt 5 = 3 := by simp [ceil_sqrt, hs]
  refine ⟨by decide, by decide, by decide, ?_⟩
  rw [hcs]
  decide

/-- Witness for C1 at `(expected, rows, cols, gemini, contour) = (4, 2, 2, 6, 4)`. -/
theorem C1_hybrid_arbitration_witness : 0 < 4 ∧ hybridDecisionProp 4 2 2 6 4 :=
  ⟨by decide, C1_hybrid_arbitration 4 2 2 6 4 (by decide)⟩

/-! ## Claim C2: the contour component area band -/

/-- C2 (amended).  `count_sprites_by_contour` keeps exactly the components
with `min_sprite_area ≤ area ≤ (w·h)//4` (with `min_sprite_area = 500` both
as the default and at the hybrid call site); the `(w·h)//64` lower bound of
the claim is computed by the source but never applied. -/
theorem C2_area_filter (w h min_sprite_area : Nat) (stats : List CompStat) :
    count_sprites_filter w h min_sprite_area stats =
      (stats.filter (fun s =>
        decide (min_sprite_area ≤ s.area) && decide (s.area ≤ w * h / 4))).map
        (fun s => (s.x, s.y, s.w, s.h)) := by
  induction stats with
  | nil => rfl
  | cons s rest ih =>
    simp only [count_sprites_filter, List.filterMap_cons, List.filter_cons] at ih ⊢
    by_cases h1 : s.area < min_sprite_area
    · rw [if_pos h1]
      have : (decide (min_sprite_area ≤ s.area) &&
          decide (s.area ≤ w * h / 4)) = false := by
        simp; omega
      rw [this]
      exact ih
    · rw [if_neg h1]
      by_cases h2 : w * h / 4 < s.area
      · rw [if_pos h2]
        have : (decide (min_sprite_area ≤ s.area) &&
            decide (s.area ≤ w * h / 4)) = false := by
          simp; omega
        rw [this]
        exact ih
      · rw [if_neg h2]
        have : (decide (min_sprite_area ≤ s.area) &&
            decide (s.area ≤ w * h / 4)) = true := by
          simp; omega
        rw [this]
        simp only [if_pos rfl, List.map_cons]
        exact congrArg _ ih

/-- C2 counterexample to the claim as stated: on a 64×64 canvas
(total area 4096) a component of area 100 lies inside the claimed band
`[4096/64, 4096/4] = [64, 1024]`, yet the filter rejects it because the
actual lower bound is the fixed `min_sprite_area = 500`, not `1/64` of the
canvas area. -/
theorem C2_counterexample :
    specAreaBandKeep (64 * 64) 100 = true ∧
      count_sprites_filter 64 64 500 [⟨100, 0, 0, 10, 10⟩] = [] ∧
      count_sprites_default_min_sprite_area = 500 := by decide

/-! ## Claim C3: the noise cleaner -/

/-- C3 (amended).  The connected-component pass keeps a pixel exactly when it
is foreground and its 8-connected component has area at least `min_area`
(so every component with area strictly below `min_area` is discarded and
every component with area at least `min_area` is kept intact); the default
`min_area` of `remove_small_components` is 100 (the pipeline call sites pass
50).  The full NoiseCleaner (opening, closing, then component removal) does
*not* preserve every component larger than `min_area`: the opening erases
thin components of arbitrarily large area (see the counterexample). -/
theorem C3_small_component_removal :
    remove_small_components_default_min_area = 100 ∧
      ∀ (binary : Img) (min_area y x : Nat), y < imgH binary → x < imgW binary →
        getPix (remove_small_components binary min_area) (y : Int) (x : Int) 0 =
          if 0 < getPix binary (y : Int) (x : Int) 0 ∧
              min_area ≤ (componentOf binary y x).length then 255 else 0 := by
  refine ⟨rfl, ?_⟩
  intro binary min_area y x hy hx
  unfold remove_small_components
  exact getPix_mkImg _ _ _ _ y x hy hx

/-- C3 counterexample to the claim as stated: the default `min_area` is 100,
not 50; and the full pipeline (opening, closing, component removal) erases a
1-pixel-thin horizontal component of area `3 > min_area = 2` entirely — the
3×3 elliptical erosion kills every pixel without a vertical neighbor — so
the NoiseCleaner does remove a component whose area exceeds `min_area`. -/
theorem C3_counterexample :
    remove_small_components_default_min_area ≠ 50 ∧
      countPos [[0,0,0,0,0],[0,255,255,255,0],[0,0,0,0,0]] = 3 ∧
      (componentOf [[0,0,0,0,0],[0,255,255,255,0],[0,0,0,0,0]] 1 1).length = 3 ∧
      2 < 3 ∧
      countPos (remove_small_components (remove_noise_morphological
        [[0,0,0,0,0],[0,255,255,255,0],[0,0,0,0,0]]) 2) = 0 := by decide

/-- Witness for C3 at the 1×1 foreground image with `min_area = 1`. -/
theorem C3_small_component_removal_witness :
    getPix (remove_small_components [[255]] 1) (0 : Int) (0 : Int) 0 =
      if 0 < getPix ([[255]] : Img) (0 : Int) (0 : Int) 0 ∧
          1 ≤ (componentOf [[255]] 0 0).length then 255 else 0 :=
  C3_small_component_removal.2 [[255]] 1 0 0 (by decide) (by decide)

/-! ## Claim C10: safety on all-background masks -/

/-- C10.  On a mask with no foreground pixel, `calculate_smart_pivot`
terminates without dividing (moments are consulted only after the
`m00 > 0` check) and returns `(0.5, 1.0, False)` when the action hint has no
airborne keyword; when the hint forces the airborne branch and the zeroth
moment is zero it falls back to `(0.5, 0.5)`; `detect_airborne_pose` returns
`False` (grounded) on an empty mask and on any mask shorter than 7 rows,
where the bottom window `int(h·0.15) = ⌊3h/20⌋` is empty. -/
theorem C10_empty_mask_safety (mask : Img) (hint : String) :
    (countPos mask = 0 → hasAirborneKeyword hint = false →
      calculate_smart_pivot mask hint = (1/2, 1, false)) ∧
    (hasAirborneKeyword hint = true → m00 mask = 0 →
      calculate_smart_pivot mask hint = (1/2, 1/2, true)) ∧
    (countPos mask = 0 → detect_airborne_pose mask = false) ∧
    (mask.length < 7 → detect_airborne_pose mask = false) := by
  have hdet0 : countPos mask = 0 → detect_airborne_pose mask = false := by
    intro h0
    unfold detect_airborne_pose
    by_cases hb : 3 * mask.length / 20 < 1
    · simp [hb]
    · simp [hb, h0]
  have hdet7 : mask.length < 7 → detect_airborne_pose mask = false := by
    intro h7
    unfold detect_airborne_pose
    have hb : 3 * mask.length / 20 < 1 := by omega
    simp [hb]
  refine ⟨?_, ?_, hdet0, hdet7⟩
  · intro h0 hk
    unfold calculate_smart_pivot
    simp [hk, hdet0 h0]
  · intro hk hm
    unfold calculate_smart_pivot
    simp [hk, hm]

/-- Witness for C10 at the empty mask with hints "idle" and "jump". -/
theorem C10_empty_mask_safety_witness :
    calculate_smart_pivot ([] : Img) "idle" = (1/2, 1, false) ∧
      calculate_smart_pivot ([] : Img) "jump" = (1/2, 1/2, true) ∧
      detect_airborne_pose ([] : Img) = false ∧
      detect_airborne_pose [[255, 255]] = false :=
  ⟨(C10_empty_mask_safety [] "idle").1 (by decide) (by decide),
   (C10_empty_mask_safety [] "jump").2.1 (by decide) (by decide),
   (C10_empty_mask_safety [] "idle").2.2.1 (by decide),
   (C10_empty_mask_safety [[255, 255]] "idle").2.2.2 (by decide)⟩

/-! ## Claim C5: airborne classification -/

/-- Modelled from the claim's words: airborne iff the hint has a mobility
keyword or strictly fewer than 10% of the foreground pixels lie within the
bottom 15% of the mask's height.  The bottom window is taken as
`⌈3h/20⌉` rows (never empty for `h > 0`), the reading most favorable to the
claim; the counterexample mask has no foreground anywhere in its bottom
two-thirds, so every reading of the window yields the same count there. -/
def claim_airborne (mask : Img) (hint : String) : Bool :=
  hasAirborneKeyword hint ||
    decide (10 * countPos (mask.drop (mask.length - (3 * mask.length + 19) / 20)) <
      countPos mask)

/-- C5 (amended).  The pose is classified airborne iff the action hint has a
mobility keyword or (the bottom window `⌊3h/20⌋` is nonempty, the mask has
foreground, and strictly fewer than 10% of the foreground pixels lie in that
window); in particular, whenever at least 10% of the foreground lies in the
bottom window and the hint has no keyword, the pose is grounded. -/
theorem C5_airborne_classification (mask : Img) (hint : String) :
    ((calculate_smart_pivot mask hint).2.2 =
      (hasAirborneKeyword hint || detect_airborne_pose mask)) ∧
    (detect_airborne_pose mask =
      (decide (1 ≤ 3 * mask.length / 20) && decide (0 < countPos mask) &&
        decide (10 * countPos
          (mask.drop (mask.length - 3 * mask.length / 20)) < countPos mask))) ∧
    (hasAirborneKeyword hint = false →
      countPos mask ≤
        10 * countPos (mask.drop (mask.length - 3 * mask.length / 20)) →
      (calculate_smart_pivot mask hint).2.2 = false) := by
  have hdet : detect_airborne_pose mask =
      (decide (1 ≤ 3 * mask.length / 20) && decide (0 < countPos mask) &&
        decide (10 * countPos
          (mask.drop (mask.length - 3 * mask.length / 20)) < countPos mask)) := by
    unfold detect_airborne_pose
    by_cases hb : 3 * mask.length / 20 < 1
    · simp only [hb, if_pos rfl]
      have : ¬ 1 ≤ 3 * mask.length / 20 := by omega
      simp [this]
    · by_cases h0 : countPos mask = 0
      · simp [hb, h0]
      · have h1 : 1 ≤ 3 * mask.length / 20 := by omega
        simp [hb, h0, h1]
        omega
  have hpiv : (calculate_smart_pivot mask hint).2.2 =
      (hasAirborneKeyword hint || detect_airborne_pose mask) := by
    unfold calculate_smart_pivot
    by_cases hair : (hasAirborneKeyword hint || detect_airborne_pose mask) = true
    · rw [hair]
      simp only [hair, if_pos rfl]
      by_cases hm : 0 < m00 mask
      · simp [hm]
      · simp [hm]
    · have hair' : (hasAirborneKeyword hint || detect_airborne_pose mask) = false := by
        simpa using hair
      simp [hair']
  refine ⟨hpiv, hdet, ?_⟩
  intro hk hge
  rw [hpiv, hk, hdet]
  simp
  omega

/-- Witness for C5: a 7×1 all-foreground mask has all its mass grounded
(`total = 7 ≤ 10 · bottom = 10`), so with the keyword-free hint "idle" the
pose is grounded. -/
theorem C5_airborne_classification_witness :
    (calculate_smart_pivot [[255],[255],[255],[255],[255],[255],[255]]
      "idle").2.2 = false :=
  (C5_airborne_classification [[255],[255],[255],[255],[255],[255],[255]]
    "idle").2.2 (by decide) (by decide)

/-- C5 counterexample to the claim as stated: a 6-row mask whose foreground
sits entirely in its top two rows has strictly fewer than 10% (namely none)
of its foreground in the bottom 15% of its height, so the claim classifies
it airborne; but `int(6 · 0.15) = 0` empties the code's bottom window and
`detect_airborne_pose` returns grounded, so with the keyword-free hint
"idle" the code classifies it grounded. -/
theorem C5_counterexample :
    claim_airborne [[255,255],[255,255],[0,0],[0,0],[0,0],[0,0]] "idle" = true ∧
      (calculate_smart_pivot [[255,255],[255,255],[0,0],[0,0],[0,0],[0,0]]
        "idle").2.2 = false := by decide

/-! ## Claim C4: empty cells are skipped by the grid extractor -/

theorem length_filterMap_eq_length_filter (f : α → Option β) (q : α → Bool)
    (hfq : ∀ a, (f a).isSome = q a) :
    ∀ l : List α, (l.filterMap f).length = (l.filter q).length := by
  intro l
  induction l with
  | nil => rfl
  | cons a rest ih =>
    rw [List.filterMap_cons, List.filter_cons]
    by_cases hq : q a = true
    · have : ∃ b, f a = some b := by
        have := hfq a
        rw [hq] at this
        exact Option.isSome_iff_exists.mp this
      obtain ⟨b, hb⟩ := this
      rw [hb, hq, if_pos rfl]
      simp [ih]
    · have hq' : q a = false := by simpa using hq
      have : f a = none := by
        have := hfq a
        rw [hq'] at this
        exact Option.not_isSome_iff_eq_none.mp (by simp [this])
      rw [this, hq']
      simpa using ih

theorem count_takeWhile_filter (e : Nat) :
    ∀ (n : Nat) (a : Nat) (q : Nat → Bool),
      (((List.range n).takeWhile (fun c => decide (a + c < e))).filter q).length =
        ((List.range n).filter (fun c => decide (a + c < e) && q c)).length := by
  intro n
  induction n with
  | zero => intro a q; rfl
  | succ m ih =>
    intro a q
    rw [List.range_succ_eq_map, List.takeWhile_cons, List.filter_cons]
    have hcomp1 : ((fun c => decide (a + c < e)) ∘ Nat.succ) =
        (fun c => decide ((a + 1) + c < e)) := by
      funext c
      rw [Function.comp_apply]
      exact decide_eq_decide.mpr (by omega)
    by_cases hlt : a < e
    · rw [if_pos (by simpa using by omega : decide (a + 0 < e) = true)]
      rw [List.filter_cons, List.takeWhile_map, hcomp1]
      have hrhs : (fun c => decide (a + c < e) && q c) ∘ Nat.succ =
          (fun c => decide ((a + 1) + c < e) && (q ∘ Nat.succ) c) := by
        funext c
        simp only [Function.comp_apply, Bool.and_eq_true, decide_eq_true_eq]
        congr 1
        exact decide_eq_decide.mpr (by omega)
      rw [List.filter_map, List.filter_map, hrhs]
      by_cases hq0 : q 0 = true
      · have hP0 : (decide (a + 0 < e) && q 0) = true := by
          simp [hq0]
          omega
        rw [if_pos hq0, if_pos hP0]
        simp only [List.length_cons, List.length_map]
        exact congrArg (· + 1) (ih (a + 1) (q ∘ Nat.succ))
      · have hq0' : q 0 = false := by simpa using hq0
        rw [if_neg (by simp [hq0']), if_neg (by simp [hq0'])]
        simp only [List.length_map]
        exact ih (a + 1) (q ∘ Nat.succ)
    · rw [if_neg (by simpa using by omega : ¬ decide (a + 0 < e) = true)]
      rw [if_neg (by simp; omega)]
      have : List.filter ((fun c => decide (a + c < e) && q c))
          ((List.range m).map Nat.succ) = [] := by
        rw [List.filter_eq_nil_iff]
        intro x hx
        simp only [List.mem_map] at hx
        obtain ⟨c, _, rfl⟩ := hx
        simp
        omega
      rw [this]
      rfl

theorem processCell_isSome (grid_image : CImg) (R cols : Nat) (act : String)
    (noise : Bool) (r c : Nat) :
    (processCell grid_image R cols act noise r c).isSome =
      anyPos (cellCleaned grid_image R cols noise r c) := by
  simp only [processCell]
  by_cases h : anyPos (cellCleaned grid_image R cols noise r c) = true
  · simp [h]
  · have h' : anyPos (cellCleaned grid_image R cols noise r c) = false := by
      simpa using h
    simp [h']

theorem extract_count_aux (grid_image : CImg) (R cols : Nat) (act : String)
    (noise : Bool) (e : Nat) :
    ∀ r : Nat,
      ((List.range r).flatMap (fun row =>
        ((List.range cols).takeWhile
            (fun col => decide (row * cols + col < e))).filterMap
          (processCell grid_image R cols act noise row))).length =
      ((List.range (r * cols)).filter
        (fun i => decide (i < e) &&
          cellNonEmptyIdx grid_image R cols noise i)).length := by
  intro r
  induction r with
  | zero => simp
  | succ m ih =>
    rw [List.range_succ, List.flatMap_append, List.length_append, ih]
    have hmul : (m + 1) * cols = m * cols + cols := by ring
    rw [hmul, List.range_add, List.filter_append, List.length_append]
    congr 1
    simp only [List.flatMap_cons, List.flatMap_nil, List.append_nil]
    rw [length_filterMap_eq_length_filter _
      (fun col => anyPos (cellCleaned grid_image R cols noise m col))
      (fun col => processCell_isSome grid_image R cols act noise m col)]
    rw [count_takeWhile_filter e cols (m * cols)
      (fun col => anyPos (cellCleaned grid_image R cols noise m col))]
    rw [List.filter_map, List.length_map]
    apply congrArg
    apply List.filter_congr
    intro c hc
    have hcc : c < cols := List.mem_range.mp hc
    have hcols : 0 < cols := by omega
    simp only [Function.comp_apply]
    unfold cellNonEmptyIdx
    have hdiv : (m * cols + c) / cols = m := by
      rw [Nat.add_comm, Nat.add_mul_div_right c m hcols, Nat.div_eq_of_lt hcc]
      omega
    have hmod : (m * cols + c) % cols = c := by
      rw [Nat.add_comm, Nat.add_mul_mod_self_right, Nat.mod_eq_of_lt hcc]
    rw [hdiv, hmod]

/-- The all-white 8×8 canvas (every cell is empty after binarization). -/
def whiteImg8 : CImg := List.replicate 8 (List.replicate 8 (255, 255, 255))

set_option maxHeartbeats 2000000 in
/-- C4.  Every grid cell whose cleaned binary mask has no contour is skipped
without producing a frame: the number of frames returned by the grid
extractor equals the number of non-empty cells among the first
`expected_count` cells in row-major order, and can be strictly less than
`expected_count` (second conjunct: an all-white 2×2 grid yields 0 of the 4
expected frames). -/
theorem C4_empty_cells_skipped :
    (∀ (grid_image : CImg) (e rows cols : Nat) (act : String) (noise : Bool),
      (extract_frames grid_image e rows cols act noise).frames.length =
        ((List.range (rows * cols)).filter
          (fun i => decide (i < e) &&
            cellNonEmptyIdx grid_image rows cols noise i)).length) ∧
    (extract_frames whiteImg8 4 2 2 "idle" true).frames.length = 0 ∧ 0 < 4 := by
  refine ⟨?_, by decide, by decide⟩
  intro grid_image e rows cols act noise
  simp only [extract_frames]
  exact extract_count_aux grid_image rows cols act noise e rows

/-! ## Claim C6: pivot range and values -/

theorem enumFrom_weighted_le (w : Nat) :
    ∀ (l : List Nat) (k : Nat), k + l.length ≤ w →
      ((List.enumFrom k l).map (fun p => p.1 * p.2)).sum ≤ (w - 1) * l.sum
  | [], _, _ => by simp
  | v :: rest, k, h => by
      have hk : k ≤ w - 1 := by
        simp only [List.length_cons] at h
        omega
      have hrec := enumFrom_weighted_le w rest (k + 1)
        (by simp only [List.length_cons] at h; omega)
      simp only [List.enumFrom, List.map_cons, List.sum_cons, List.sum_nil]
      calc k * v + ((List.enumFrom (k + 1) rest).map (fun p => p.1 * p.2)).sum
          ≤ (w - 1) * v + (w - 1) * rest.sum :=
            Nat.add_le_add (Nat.mul_le_mul_right v hk) hrec
        _ = (w - 1) * (v + rest.sum) := by ring

theorem m10_le (mask : Img) (w : Nat) (hw : ∀ row ∈ mask, row.length ≤ w) :
    m10 mask ≤ (w - 1) * m00 mask := by
  unfold m10 m00
  induction mask with
  | nil => simp
  | cons row rest ih =>
    simp only [List.map_cons, List.sum_cons, Nat.left_distrib]
    have h1 : ((row.enum.map (fun p => p.1 * p.2)).sum) ≤ (w - 1) * row.sum := by
      have : row.enum = List.enumFrom 0 row := rfl
      rw [this]
      exact enumFrom_weighted_le w row 0 (by simpa using hw row (by simp))
    have h2 := ih (fun r hr => hw r (by simp [hr]))
    omega

theorem m01_le (mask : Img) : m01 mask ≤ (mask.length - 1) * m00 mask := by
  unfold m01 m00
  have : (mask.map List.sum).enum = List.enumFrom 0 (mask.map List.sum) := rfl
  rw [this]
  exact enumFrom_weighted_le mask.length (mask.map List.sum) 0 (by simp)

theorem m00_pos_width (mask : Img) (hrect : isRectB mask = true)
    (hm : 0 < m00 mask) : 0 < imgW mask ∧ 0 < imgH mask := by
  by_contra hcon
  have hz : m00 mask = 0 := by
    rcases Decidable.not_and_iff_or_not.mp hcon with hw | hh
    · have hw0 : imgW mask = 0 := by omega
      unfold m00
      rw [List.sum_eq_zero]
      intro s hs
      simp only [List.mem_map] at hs
      obtain ⟨row, hrow, rfl⟩ := hs
      have hbeq := (List.all_eq_true.mp hrect) row hrow
      have hlen : row.length = 0 := by
        have : row.length = imgW mask := by simpa using hbeq
        omega
      rw [List.length_eq_zero.mp hlen]
      rfl
    · have : mask.length = 0 := by
        unfold imgH at hh
        omega
      rw [List.length_eq_zero.mp this]
      rfl
  omega

/-- C6.  Every pivot returned by `calculate_smart_pivot` lies in
`[0,1] × [0,1]`; the grounded pivot is exactly `(0.5, 1.0)`; and the airborne
pivot on a nonempty mask is exactly the center of mass normalized by the
mask's width and height. -/
theorem C6_pivot_range (mask : Img) (hint : String) (hrect : isRectB mask = true) :
    (0 ≤ (calculate_smart_pivot mask hint).1 ∧
      (calculate_smart_pivot mask hint).1 ≤ 1 ∧
      0 ≤ (calculate_smart_pivot mask hint).2.1 ∧
      (calculate_smart_pivot mask hint).2.1 ≤ 1) ∧
    ((calculate_smart_pivot mask hint).2.2 = false →
      (calculate_smart_pivot mask hint).1 = 1/2 ∧
      (calculate_smart_pivot mask hint).2.1 = 1) ∧
    ((calculate_smart_pivot mask hint).2.2 = true → 0 < m00 mask →
      (calculate_smart_pivot mask hint).1 =
        (m10 mask : ℚ) / (m00 mask : ℚ) / (imgW mask : ℚ) ∧
      (calculate_smart_pivot mask hint).2.1 =
        (m01 mask : ℚ) / (m00 mask : ℚ) / (imgH mask : ℚ)) := by
  simp only [calculate_smart_pivot]
  by_cases hair : (hasAirborneKeyword hint || detect_airborne_pose mask) = true
  · rw [hair]
    simp only [if_pos rfl]
    by_cases hm : 0 < m00 mask
    · obtain ⟨hw, hh⟩ := m00_pos_width mask hrect hm
      have hwq : (0 : ℚ) < (imgW mask : ℚ) := by exact_mod_cast hw
      have hhq : (0 : ℚ) < (imgH mask : ℚ) := by exact_mod_cast hh
      have hmq : (0 : ℚ) < (m00 mask : ℚ) := by exact_mod_cast hm
      have hx1 : (m10 mask : ℚ) / (m00 mask : ℚ) / (imgW mask : ℚ) ≤ 1 := by
        rw [div_div, div_le_one (by positivity)]
        have hn : m10 mask ≤ m00 mask * imgW mask := by
          have h1 := m10_le mask (imgW mask) (fun row hr => by
            have hbeq := (List.all_eq_true.mp hrect) row hr
            have : row.length = imgW mask := by simpa using hbeq
            omega)
          calc m10 mask ≤ (imgW mask - 1) * m00 mask := h1
            _ ≤ imgW mask * m00 mask :=
                Nat.mul_le_mul_right _ (Nat.sub_le _ _)
            _ = m00 mask * imgW mask := Nat.mul_comm _ _
        exact_mod_cast hn
      have hy1 : (m01 mask : ℚ) / (m00 mask : ℚ) / (imgH mask : ℚ) ≤ 1 := by
        rw [div_div, div_le_one (by positivity)]
        have hn : m01 mask ≤ m00 mask * imgH mask := by
          calc m01 mask ≤ (mask.length - 1) * m00 mask := m01_le mask
            _ ≤ mask.length * m00 mask :=
                Nat.mul_le_mul_right _ (Nat.sub_le _ _)
            _ = m00 mask * imgH mask := Nat.mul_comm _ _
        exact_mod_cast hn
      rw [if_pos hm]
      refine ⟨⟨?_, ?_, ?_, ?_⟩, ?_, ?_⟩
      · show 0 ≤ (m10 mask : ℚ) / (m00 mask : ℚ) / (imgW mask : ℚ)
        positivity
      · show (m10 mask : ℚ) / (m00 mask : ℚ) / (imgW mask : ℚ) ≤ 1
        exact hx1
      · show 0 ≤ (m01 mask : ℚ) / (m00 mask : ℚ) / (imgH mask : ℚ)
        positivity
      · show (m01 mask : ℚ) / (m00 mask : ℚ) / (imgH mask : ℚ) ≤ 1
        exact hy1
      · intro hfalse
        simp at hfalse
      · intro _ _
        exact ⟨rfl, rfl⟩
    · rw [if_neg hm]
      refine ⟨⟨by norm_num, by norm_num, by norm_num, by norm_num⟩, ?_, ?_⟩
      · intro hfalse
        simp at hfalse
      · intro _ hm'
        exact absurd hm' hm
  · have hair' : (hasAirborneKeyword hint || detect_airborne_pose mask) = false := by
      simpa using hair
    rw [hair']
    simp only [Bool.false_eq_true, if_false]
    refine ⟨⟨by norm_num, by norm_num, by norm_num, by norm_num⟩, ?_, ?_⟩
    · intro _
      exact ⟨by trivial, by trivial⟩
    · intro htrue
      simp at htrue

/-- Witness for C6 at a 2×2 rectangular mask with foreground in the top-left
pixel and the hint "fly". -/
theorem C6_pivot_range_witness :
    0 ≤ (calculate_smart_pivot [[255, 0], [0, 0]] "fly").1 ∧
      (calculate_smart_pivot [[255, 0], [0, 0]] "fly").1 ≤ 1 ∧
      0 ≤ (calculate_smart_pivot [[255, 0], [0, 0]] "fly").2.1 ∧
      (calculate_smart_pivot [[255, 0], [0, 0]] "fly").2.1 ≤ 1 :=
  (C6_pivot_range [[255, 0], [0, 0]] "fly" (by decide)).1

/-! ## Claim C7: frame normalization -/

/-- C7.  `normalize_frames` returns one output per input; every output canvas
has exactly `target_h` rows of `target_w` (4-channel) pixels, regardless of
the input frame's size; and for any actual sprite size — including sprites
larger than the canvas — the source and destination rectangles are clipped to
the source and canvas bounds with equal extents, so the composite never reads
or writes out of bounds. -/
theorem C7_frame_normalizer (frames : List ExtractedFrame) (target_w target_h : Nat) :
    (normalize_frames frames target_w target_h).length = frames.length ∧
    (∀ out ∈ normalize_frames frames target_w target_h,
      imgH out = target_h ∧ ∀ row ∈ out, row.length = target_w) ∧
    (∀ (actual_w actual_h : Nat) (airborne : Bool),
      0 ≤ (normClip target_w target_h actual_w actual_h airborne).src_x1 ∧
      (normClip target_w target_h actual_w actual_h airborne).src_x2 ≤ actual_w ∧
      0 ≤ (normClip target_w target_h actual_w actual_h airborne).src_y1 ∧
      (normClip target_w target_h actual_w actual_h airborne).src_y2 ≤ actual_h ∧
      0 ≤ (normClip target_w target_h actual_w actual_h airborne).dst_x1 ∧
      (normClip target_w target_h actual_w actual_h airborne).dst_x2 ≤ target_w ∧
      0 ≤ (normClip target_w target_h actual_w actual_h airborne).dst_y1 ∧
      (normClip target_w target_h actual_w actual_h airborne).dst_y2 ≤ target_h ∧
      (normClip target_w target_h actual_w actual_h airborne).dst_x2 -
          (normClip target_w target_h actual_w actual_h airborne).dst_x1 =
        (normClip target_w target_h actual_w actual_h airborne).src_x2 -
          (normClip target_w target_h actual_w actual_h airborne).src_x1 ∧
      (normClip target_w target_h actual_w actual_h airborne).dst_y2 -
          (normClip target_w target_h actual_w actual_h airborne).dst_y1 =
        (normClip target_w target_h actual_w actual_h airborne).src_y2 -
          (normClip target_w target_h actual_w actual_h airborne).src_y1) := by
  refine ⟨by simp [normalize_frames], ?_, ?_⟩
  · intro out hout
    simp only [normalize_frames, List.mem_map] at hout
    obtain ⟨f, _, rfl⟩ := hout
    simp only [normalize_one]
    exact ⟨imgH_mkImg _ _ _, fun row hrow => length_row_mkImg _ _ _ _ hrow⟩
  · intro aw ah airborne
    simp only [normClip]
    have hdx : ((target_w : Int) - (aw : Int)).fdiv 2 =
        ((target_w : Int) - (aw : Int)) / 2 :=
      Int.fdiv_eq_ediv _ (by norm_num)
    cases airborne
    · simp only [if_neg (by simp : ¬ (false = true))]
      rw [hdx]
      refine ⟨by omega, by omega, by omega, by omega, by omega, ?_, by omega,
        ?_, by omega, by omega⟩ <;> omega
    · simp only [if_pos rfl]
      have hdy : ((target_h : Int) - (ah : Int)).fdiv 2 =
          ((target_h : Int) - (ah : Int)) / 2 :=
        Int.fdiv_eq_ediv _ (by norm_num)
      rw [hdx, hdy]
      refine ⟨by omega, by omega, by omega, by omega, by omega, ?_, by omega,
        ?_, by omega, by omega⟩ <;> omega

/-- A grounded 3×3 black frame, larger than the 2×2 canvas of the witness. -/
def c7frame : ExtractedFrame :=
  ExtractedFrame.mk 0 (List.replicate 3 (List.replicate 3 (0, 0, 0))) 0 0 3 3
    (1/2) 1 false

/-- Witness for C7: a single grounded 3×3 black frame normalized onto a
smaller 2×2 canvas (the oversized sprite is clipped, not an error). -/
theorem C7_frame_normalizer_witness :
    (normalize_frames [c7frame] 2 2).length = 1 ∧
      imgH ((normalize_frames [c7frame] 2 2).headD []) = 2 :=
  ⟨(C7_frame_normalizer [c7frame] 2 2).1.trans rfl,
   ((C7_frame_normalizer [c7frame] 2 2).2.1 _ (by decide)).1⟩

/-! ## Claim C8: the threshold matte -/

/-- Raw BGR pixel access at natural coordinates. -/
def pixAt (image : CImg) (y x : Nat) : BGRPix :=
  getPix image (y : Int) (x : Int) (0, 0, 0)

theorem getD_mem_or (l : List α) (n : Nat) (d : α) :
    l.getD n d ∈ l ∨ l.getD n d = d := by
  rcases Nat.lt_or_ge n l.length with h | h
  · left
    rw [List.getD_eq_getElem?_getD, List.getElem?_eq_getElem h, Option.getD_some]
    exact List.getElem_mem h
  · right
    rw [List.getD_eq_getElem?_getD, List.getElem?_eq_none (by omega),
      Option.getD_none]

theorem getPix_eq_getElem (img : List (List α)) (y x : Nat) (d : α)
    (hy : y < img.length) (hx : x < (img[y]).length) :
    getPix img (y : Int) (x : Int) d = (img[y])[x] := by
  unfold getPix
  rw [if_pos (by omega), Int.toNat_ofNat, Int.toNat_ofNat]
  have h1 : img.getD y [] = img[y] := by
    rw [List.getD_eq_getElem?_getD, List.getElem?_eq_getElem hy, Option.getD_some]
  rw [h1, List.getD_eq_getElem?_getD, List.getElem?_eq_getElem hx,
    Option.getD_some]

theorem getPix_le (img : Img) (y x : Int) (d M : Nat)
    (hall : ∀ row ∈ img, ∀ v ∈ row, v ≤ M) (hd : d ≤ M) :
    getPix img y x d ≤ M := by
  unfold getPix
  split
  · rcases getD_mem_or img y.toNat [] with hrow | hrow
    · rcases getD_mem_or (img.getD y.toNat []) x.toNat d with hv | hv
      · exact hall _ hrow _ hv
      · rw [hv]
        exact hd
    · rw [hrow]
      simpa using hd
  · exact hd

theorem mkImg_all {P : α → Prop} (h w : Nat) (f : Nat → Nat → α)
    (hf : ∀ y x, P (f y x)) :
    ∀ row ∈ mkImg h w f, ∀ v ∈ row, P v := by
  intro row hrow v hv
  simp only [mkImg, List.mem_map] at hrow
  obtain ⟨y, _, rfl⟩ := hrow
  simp only [List.mem_map] at hv
  obtain ⟨x, _, rfl⟩ := hv
  exact hf y x

theorem sharpAlpha_le_255 (image : CImg) (t : Nat) :
    ∀ row ∈ sharpAlpha image t, ∀ v ∈ row, v ≤ 255 := by
  intro row hrow v hv
  simp only [sharpAlpha, List.mem_map] at hrow
  obtain ⟨r0, _, rfl⟩ := hrow
  simp only [List.mem_map] at hv
  obtain ⟨p, _, rfl⟩ := hv
  split <;> omega

theorem imgH_sharpAlpha (image : CImg) (t : Nat) :
    imgH (sharpAlpha image t) = imgH image := by
  simp [sharpAlpha, imgH]

theorem imgW_sharpAlpha (image : CImg) (t : Nat) :
    imgW (sharpAlpha image t) = imgW image := by
  cases image with
  | nil => rfl
  | cons r rest => simp [sharpAlpha, imgW]

theorem dilate3_le_255 (img : Img) (hall : ∀ row ∈ img, ∀ v ∈ row, v ≤ 255) :
    ∀ row ∈ dilate3 img, ∀ v ∈ row, v ≤ 255 := by
  unfold dilate3
  apply mkImg_all
  intro y x
  have hb : ∀ (yy xx : Int), getPix img yy xx 0 ≤ 255 := fun yy xx =>
    getPix_le img yy xx 0 255 hall (by omega)
  simp only [Nat.max_le]
  exact ⟨hb _ _, hb _ _, hb _ _, hb _ _, hb _ _⟩

theorem blur3_le_255 (a : Img) (hall : ∀ row ∈ a, ∀ v ∈ row, v ≤ 255)
    (y x : Int) : getPix (blur3 a) y x 0 ≤ 255 := by
  refine getPix_le _ y x 0 255 ?_ (by omega)
  simp only [blur3]
  refine mkImg_all _ _ _ ?_
  intro yy xx
  have hb : ∀ (ry rx : Nat), getPix a (ry : Int) (rx : Int) 0 ≤ 255 :=
    fun ry rx => getPix_le a _ _ 0 255 hall (by omega)
  have h1 := hb (reflect101 (imgH a) ((yy : Int) + -1)) (reflect101 (imgW a) ((xx : Int) + -1))
  have h2 := hb (reflect101 (imgH a) ((yy : Int) + -1)) (reflect101 (imgW a) ((xx : Int) + 0))
  have h3 := hb (reflect101 (imgH a) ((yy : Int) + -1)) (reflect101 (imgW a) ((xx : Int) + 1))
  have h4 := hb (reflect101 (imgH a) ((yy : Int) + 0)) (reflect101 (imgW a) ((xx : Int) + -1))
  have h5 := hb (reflect101 (imgH a) ((yy : Int) + 0)) (reflect101 (imgW a) ((xx : Int) + 0))
  have h6 := hb (reflect101 (imgH a) ((yy : Int) + 0)) (reflect101 (imgW a) ((xx : Int) + 1))
  have h7 := hb (reflect101 (imgH a) ((yy : Int) + 1)) (reflect101 (imgW a) ((xx : Int) + -1))
  have h8 := hb (reflect101 (imgH a) ((yy : Int) + 1)) (reflect101 (imgW a) ((xx : Int) + 0))
  have h9 := hb (reflect101 (imgH a) ((yy : Int) + 1)) (reflect101 (imgW a) ((xx : Int) + 1))
  omega

theorem reflect101_mem (len : Nat) (i : Nat) (d : Int) (hi : i < len)
    (hd1 : -1 ≤ d) (hd2 : d ≤ 1) :
    reflect101 len ((i : Int) + d) < len ∧
      (reflect101 len ((i : Int) + d) : Int) - i ≤ 1 ∧
      (i : Int) - reflect101 len ((i : Int) + d) ≤ 1 := by
  unfold reflect101
  split
  · omega
  · split
    · omega
    · split
      · omega
      · omega

theorem imgH_dilate3 (img : Img) : imgH (dilate3 img) = imgH img :=
  imgH_mkImg _ _ _

theorem imgW_dilate3 (img : Img) (h : 0 < imgH img) :
    imgW (dilate3 img) = imgW img :=
  imgW_mkImg _ _ _ h

/-- The sharp matte is 0 at every coordinate (in or out of bounds) whose
pixel — when in bounds — is white. -/
theorem sharpAlpha_zero (image : CImg) (t : Nat) (hrect : isRectB image = true)
    (yy xx : Int)
    (hw : ∀ (y2 x2 : Nat), y2 < imgH image → x2 < imgW image →
      (y2 : Int) = yy → (x2 : Int) = xx → isWhitePix t (pixAt image y2 x2) = true) :
    getPix (sharpAlpha image t) yy xx 0 = 0 := by
  unfold getPix
  split
  · rcases Nat.lt_or_ge yy.toNat image.length with hy | hy
    · have hrow : (sharpAlpha image t).getD yy.toNat [] =
          (image[yy.toNat]).map
            (fun p => if isWhitePix t p then 0 else 255) := by
        unfold sharpAlpha
        rw [List.getD_eq_getElem?_getD, List.getElem?_map,
          List.getElem?_eq_getElem hy]
        rfl
      rw [hrow]
      rcases Nat.lt_or_ge xx.toNat (image[yy.toNat]).length with hx | hx
      · have hv : ((image[yy.toNat]).map
            (fun p => if isWhitePix t p then 0 else 255)).getD xx.toNat 0 =
              if isWhitePix t ((image[yy.toNat])[xx.toNat]) then 0 else 255 := by
          rw [List.getD_eq_getElem?_getD, List.getElem?_map,
            List.getElem?_eq_getElem hx]
          rfl
        rw [hv]
        have hxw : xx.toNat < imgW image := by
          have := (List.all_eq_true.mp hrect) _ (List.getElem_mem hy)
          have hlen : (image[yy.toNat]).length = imgW image := by
            simpa using this
          omega
        have hpix : pixAt image yy.toNat xx.toNat = (image[yy.toNat])[xx.toNat] := by
          unfold pixAt
          exact getPix_eq_getElem image yy.toNat xx.toNat _ hy hx
        have := hw yy.toNat xx.toNat (by exact hy) hxw (by omega) (by omega)
        rw [hpix] at this
        rw [this]
        rfl
      · have hempty : ((image[yy.toNat]).map
            (fun p => if isWhitePix t p then 0 else 255)).getD xx.toNat 0 = 0 := by
          rw [List.getD_eq_getElem?_getD,
            List.getElem?_eq_none (by simpa using hx), Option.getD_none]
        exact hempty
    · have hrow0 : (sharpAlpha image t).getD yy.toNat [] = [] := by
        rw [List.getD_eq_getElem?_getD,
          List.getElem?_eq_none (by simpa [sharpAlpha] using hy), Option.getD_none]
      rw [hrow0]
      simp
  · rfl

theorem getPix_sharpAlpha (image : CImg) (t : Nat) (y x : Nat)
    (hrect : isRectB image = true) (hy : y < imgH image) (hx : x < imgW image) :
    getPix (sharpAlpha image t) (y : Int) (x : Int) 0 =
      if isWhitePix t (pixAt image y x) then 0 else 255 := by
  have hy' : y < image.length := hy
  have hrow : (image[y]).length = imgW image := by
    simpa using (List.all_eq_true.mp hrect) _ (List.getElem_mem hy')
  have hx' : x < (image[y]).length := by omega
  have hys : y < (sharpAlpha image t).length := by
    simpa [sharpAlpha] using hy'
  have hxs : x < ((sharpAlpha image t)[y]).length := by
    simp only [sharpAlpha, List.getElem_map, List.length_map]
    omega
  rw [getPix_eq_getElem _ y x 0 hys hxs]
  have : ((sharpAlpha image t)[y])[x] =
      if isWhitePix t ((image[y])[x]) then 0 else 255 := by
    simp only [sharpAlpha, List.getElem_map]
  rw [this, pixAt, getPix_eq_getElem image y x _ hy' hx']

theorem dilate3_zero (s : Img) (ry rx : Nat) (hy : ry < imgH s)
    (hx : rx < imgW s)
    (hz : ∀ (yy xx : Int), yy - ry ≤ 1 → (ry : Int) - yy ≤ 1 → xx - rx ≤ 1 →
      (rx : Int) - xx ≤ 1 → getPix s yy xx 0 = 0) :
    getPix (dilate3 s) (ry : Int) (rx : Int) 0 = 0 := by
  unfold dilate3
  rw [getPix_mkImg _ _ _ _ ry rx hy hx]
  rw [hz (ry : Int) (rx : Int) (by omega) (by omega) (by omega) (by omega),
    hz ((ry : Int) - 1) (rx : Int) (by omega) (by omega) (by omega) (by omega),
    hz ((ry : Int) + 1) (rx : Int) (by omega) (by omega) (by omega) (by omega),
    hz (ry : Int) ((rx : Int) - 1) (by omega) (by omega) (by omega) (by omega),
    hz (ry : Int) ((rx : Int) + 1) (by omega) (by omega) (by omega) (by omega)]
  simp

theorem alphaAt_rwb (image : CImg) (t f : Nat) (y x : Nat)
    (hrect : isRectB image = true) (hy : y < imgH image) (hx : x < imgW image) :
    alphaAt (remove_white_background image t f) y x =
      getPix (rwbAlpha image t f) (y : Int) (x : Int) 0 := by
  have hy' : y < image.length := hy
  have himgrow : (image[y]).length = imgW image := by
    simpa using (List.all_eq_true.mp hrect) _ (List.getElem_mem hy')
  have hlen : (rwbAlpha image t f).length = image.length := by
    unfold rwbAlpha
    split
    · simpa [imgH] using imgH_mkImg (imgH image) (imgW image)
        (fun y x => max (getPix (blur3 (dilate3 (sharpAlpha image t)))
          (y : Int) (x : Int) 0) (getPix (sharpAlpha image t) (y : Int) (x : Int) 0))
    · simp [sharpAlpha]
  have hAy : y < (rwbAlpha image t f).length := by omega
  have hrowlen : ((rwbAlpha image t f)[y]).length = imgW image := by
    by_cases hf : 0 < f
    · have heq : rwbAlpha image t f = mkImg (imgH image) (imgW image) (fun y x =>
          max (getPix (blur3 (dilate3 (sharpAlpha image t))) (y : Int) (x : Int) 0)
            (getPix (sharpAlpha image t) (y : Int) (x : Int) 0)) := by
        unfold rwbAlpha
        rw [if_pos hf]
      have hm0 : ((rwbAlpha image t f)[y]) ∈
          mkImg (imgH image) (imgW image) (fun yy xx =>
            max (getPix (blur3 (dilate3 (sharpAlpha image t)))
              (yy : Int) (xx : Int) 0)
              (getPix (sharpAlpha image t) (yy : Int) (xx : Int) 0)) := by
        rw [← heq]
        exact List.getElem_mem hAy
      exact length_row_mkImg _ _ _ _ hm0
    · have heq : rwbAlpha image t f = sharpAlpha image t := by
        unfold rwbAlpha
        rw [if_neg hf]
      have hmem : (rwbAlpha image t f)[y] ∈ sharpAlpha image t := by
        rw [← heq]
        exact List.getElem_mem hAy
      simp only [sharpAlpha, List.mem_map] at hmem
      obtain ⟨r0, hr0, heq2⟩ := hmem
      rw [← heq2, List.length_map]
      simpa using (List.all_eq_true.mp hrect) _ hr0
  have h1 : y < (List.zipWith (fun row arow =>
      List.zipWith (fun (p : BGRPix) a => (p.1, p.2.1, p.2.2, a)) row arow)
      image (rwbAlpha image t f)).length := by
    rw [List.length_zipWith]
    omega
  have h2 : x < ((List.zipWith (fun row arow =>
      List.zipWith (fun (p : BGRPix) a => (p.1, p.2.1, p.2.2, a)) row arow)
      image (rwbAlpha image t f))[y]).length := by
    simp only [List.getElem_zipWith, List.length_zipWith]
    omega
  unfold alphaAt remove_white_background
  rw [getPix_eq_getElem _ y x _ h1 h2]
  simp only [List.getElem_zipWith]
  rw [getPix_eq_getElem (rwbAlpha image t f) y x 0 hAy (by omega)]

/-- C8 (amended).  In `remove_white_background` with the default feathering
(`feather = 1`): every originally non-white pixel keeps alpha 255, and an
all-white pixel whose whole 5×5 neighborhood (Chebyshev distance ≤ 2,
clipped to the image) is white receives alpha 0; with feathering disabled
(`feather = 0`) the matte is exact — white pixels get alpha 0 and all others
alpha 255.  (White pixels *adjacent* to the sprite may receive positive
alpha under feathering — the softened edge; see the counterexample.) -/
theorem C8_threshold_matte (image : CImg) (y x : Nat)
    (hrect : isRectB image = true) (hy : y < imgH image) (hx : x < imgW image) :
    (isWhitePix 240 (pixAt image y x) = false →
      alphaAt (remove_white_background image 240 1) y x = 255) ∧
    ((∀ y2, y2 < imgH image → ∀ x2, x2 < imgW image →
        (y2 : Int) - y ≤ 2 → (y : Int) - y2 ≤ 2 →
        (x2 : Int) - x ≤ 2 → (x : Int) - x2 ≤ 2 →
        isWhitePix 240 (pixAt image y2 x2) = true) →
      alphaAt (remove_white_background image 240 1) y x = 0) ∧
    (alphaAt (remove_white_background image 240 0) y x =
      if isWhitePix 240 (pixAt image y x) then 0 else 255) := by
  have hzero : alphaAt (remove_white_background image 240 0) y x =
      if isWhitePix 240 (pixAt image y x) then 0 else 255 := by
    rw [alphaAt_rwb image 240 0 y x hrect hy hx]
    have h0 : rwbAlpha image 240 0 = sharpAlpha image 240 := by
      unfold rwbAlpha
      rw [if_neg (by omega)]
    rw [h0, getPix_sharpAlpha image 240 y x hrect hy hx]
  have hone : getPix (rwbAlpha image 240 1) (y : Int) (x : Int) 0 =
      max (getPix (blur3 (dilate3 (sharpAlpha image 240))) (y : Int) (x : Int) 0)
        (getPix (sharpAlpha image 240) (y : Int) (x : Int) 0) := by
    unfold rwbAlpha
    rw [if_pos (by omega)]
    exact getPix_mkImg _ _ _ _ y x hy hx
  refine ⟨?_, ?_, hzero⟩
  · intro hnw
    rw [alphaAt_rwb image 240 1 y x hrect hy hx, hone,
      getPix_sharpAlpha image 240 y x hrect hy hx, if_neg (by simp [hnw])]
    have hble : getPix (blur3 (dilate3 (sharpAlpha image 240)))
        (y : Int) (x : Int) 0 ≤ 255 :=
      blur3_le_255 _ (dilate3_le_255 _ (sharpAlpha_le_255 image 240)) _ _
    omega
  · intro hnbhd
    rw [alphaAt_rwb image 240 1 y x hrect hy hx, hone]
    have hsz : getPix (sharpAlpha image 240) (y : Int) (x : Int) 0 = 0 := by
      rw [getPix_sharpAlpha image 240 y x hrect hy hx,
        if_pos (hnbhd y hy x hx (by omega) (by omega) (by omega) (by omega))]
    have hHS : imgH (sharpAlpha image 240) = imgH image :=
      imgH_sharpAlpha image 240
    have hWS : imgW (sharpAlpha image 240) = imgW image :=
      imgW_sharpAlpha image 240
    have hHD : imgH (dilate3 (sharpAlpha image 240)) = imgH image := by
      rw [imgH_dilate3, hHS]
    have hWD : imgW (dilate3 (sharpAlpha image 240)) = imgW image := by
      rw [imgW_dilate3 _ (by omega), hWS]
    have hz : ∀ (dy dx : Int), -1 ≤ dy → dy ≤ 1 → -1 ≤ dx → dx ≤ 1 →
        getPix (dilate3 (sharpAlpha image 240))
          ((reflect101 (imgH (dilate3 (sharpAlpha image 240)))
            ((y : Int) + dy) : Nat) : Int)
          ((reflect101 (imgW (dilate3 (sharpAlpha image 240)))
            ((x : Int) + dx) : Nat) : Int) 0 = 0 := by
      intro dy dx hdy1 hdy2 hdx1 hdx2
      have hry := reflect101_mem (imgH (dilate3 (sharpAlpha image 240))) y dy
        (by omega) hdy1 hdy2
      have hrx := reflect101_mem (imgW (dilate3 (sharpAlpha image 240))) x dx
        (by omega) hdx1 hdx2
      refine dilate3_zero _ _ _ (by omega) (by omega) ?_
      intro yy xx h1 h2 h3 h4
      refine sharpAlpha_zero image 240 hrect yy xx ?_
      intro y2 x2 hy2 hx2 hey hex
      exact hnbhd y2 hy2 x2 hx2 (by omega) (by omega) (by omega) (by omega)
    rw [hsz]
    have hbz : getPix (blur3 (dilate3 (sharpAlpha image 240)))
        (y : Int) (x : Int) 0 = 0 := by
      simp only [blur3]
      rw [getPix_mkImg _ _ _ _ y x (by omega) (by omega)]
      rw [hz (-1) (-1) (by norm_num) (by norm_num) (by norm_num) (by norm_num),
        hz (-1) 0 (by norm_num) (by norm_num) (by norm_num) (by norm_num),
        hz (-1) 1 (by norm_num) (by norm_num) (by norm_num) (by norm_num),
        hz 0 (-1) (by norm_num) (by norm_num) (by norm_num) (by norm_num),
        hz 0 0 (by norm_num) (by norm_num) (by norm_num) (by norm_num),
        hz 0 1 (by norm_num) (by norm_num) (by norm_num) (by norm_num),
        hz 1 (-1) (by norm_num) (by norm_num) (by norm_num) (by norm_num),
        hz 1 0 (by norm_num) (by norm_num) (by norm_num) (by norm_num),
        hz 1 1 (by norm_num) (by norm_num) (by norm_num) (by norm_num)]
    rw [hbz]
    simp

/-- C8 counterexample to the claim as stated: in a 1×2 image whose left
pixel is black and right pixel white, the white pixel is adjacent to the
sprite, so with the default feathering the dilated-and-blurred matte gives it
alpha 255 rather than the claimed 0. -/
theorem C8_counterexample :
    isWhitePix 240 (pixAt [[(0,0,0), (255,255,255)]] 0 1) = true ∧
      alphaAt (remove_white_background [[(0,0,0), (255,255,255)]] 240 1) 0 1 =
        255 := by decide

/-- A 5×5 image, white except for a black top-left pixel. -/
def c8img : CImg :=
  ((0, 0, 0) :: List.replicate 4 (255, 255, 255)) ::
    List.replicate 4 (List.replicate 5 (255, 255, 255))

/-- Witness for C8: on `c8img` the non-white pixel `(0,0)` keeps alpha 255
and the far white pixel `(4,4)` gets alpha 0. -/
theorem C8_threshold_matte_witness :
    alphaAt (remove_white_background c8img 240 1) 0 0 = 255 ∧
      alphaAt (remove_white_background c8img 240 1) 4 4 = 0 :=
  ⟨(C8_threshold_matte c8img 0 0 (by decide) (by decide) (by decide)).1
      (by decide),
   (C8_threshold_matte c8img 4 4 (by decide) (by decide) (by decide)).2.1
      (by
        intro y2 hy2 x2 hx2 h1 h2 h3 h4
        have h5 : imgH c8img = 5 := rfl
        have h6 : imgW c8img = 5 := rfl
        have hy2' : y2 = 2 ∨ y2 = 3 ∨ y2 = 4 := by omega
        have hx2' : x2 = 2 ∨ x2 = 3 ∨ x2 = 4 := by omega
        rcases hy2' with rfl | rfl | rfl <;>
          rcases hx2' with rfl | rfl | rfl <;> decide)⟩

/-! ## Claim C9: the border stripper -/

theorem takeWhile_len_le (p : α → Bool) :
    ∀ l : List α, (l.takeWhile p).length ≤ l.length
  | [] => by simp
  | a :: rest => by
      rw [List.takeWhile_cons]
      split
      · simpa using takeWhile_len_le p rest
      · simp

theorem takeWhile_getD_true (p : α → Bool) (d : α) :
    ∀ (l : List α) (i : Nat), i < (l.takeWhile p).length → p (l.getD i d) = true
  | [], i, h => by simp at h
  | a :: rest, i, h => by
      rw [List.takeWhile_cons] at h
      by_cases hp : p a = true
      · rw [if_pos hp] at h
        cases i with
        | zero => simpa using hp
        | succ j =>
            rw [List.getD_cons_succ]
            exact takeWhile_getD_true p d rest j (by simpa using h)
      · rw [if_neg hp] at h
        simp at h

theorem takeWhile_getD_stop (p : α → Bool) (d : α) :
    ∀ l : List α, (l.takeWhile p).length < l.length →
      p (l.getD (l.takeWhile p).length d) = false
  | [], h => by simp at h
  | a :: rest, h => by
      rw [List.takeWhile_cons] at h ⊢
      by_cases hp : p a = true
      · rw [if_pos hp] at h ⊢
        simp only [List.length_cons, List.getD_cons_succ]
        exact takeWhile_getD_stop p d rest (by simpa using h)
      · rw [if_neg hp] at h ⊢
        simpa using hp

/-- Rational mean of a pixel line (`np.mean`). -/
def lineMean (ps : List Nat) : ℚ :=
  ((ps.map (fun (v : Nat) => (v : ℚ))).sum) / ps.length

/-- Rational population variance of a pixel line (the square of `np.std`;
`std < 15 ↔ var < 225`). -/
def lineVar (ps : List Nat) : ℚ :=
  ((ps.map (fun (v : Nat) => ((v : ℚ) - lineMean ps) ^ 2)).sum) / ps.length

theorem sum_sq_dev (μ : ℚ) :
    ∀ ps : List Nat,
      (ps.map (fun (v : Nat) => ((v : ℚ) - μ) ^ 2)).sum =
        (ps.map (fun (v : Nat) => (v : ℚ) * v)).sum -
          2 * μ * (ps.map (fun (v : Nat) => (v : ℚ))).sum + ps.length * μ ^ 2
  | [] => by simp
  | v :: rest => by
      simp only [List.map_cons, List.sum_cons, List.length_cons]
      rw [sum_sq_dev μ rest]
      have hc : ((rest.length + 1 : Nat) : ℚ) = (rest.length : ℚ) + 1 := by
        push_cast
        ring
      rw [hc]
      ring

theorem cast_sum_sq (ps : List Nat) :
    (((ps.map (fun v => v * v)).sum : Nat) : ℚ) =
      (ps.map (fun (v : Nat) => (v : ℚ) * v)).sum := by
  induction ps with
  | nil => simp
  | cons v rest ih =>
      simp only [List.map_cons, List.sum_cons]
      rw [Nat.cast_add, ih, Nat.cast_mul]

theorem cast_sum (ps : List Nat) :
    ((ps.sum : Nat) : ℚ) = (ps.map (fun (v : Nat) => (v : ℚ))).sum := by
  induction ps with
  | nil => simp
  | cons v rest ih =>
      simp only [List.map_cons, List.sum_cons]
      rw [Nat.cast_add, ih]

theorem is_border_line_iff (ps : List Nat) (hne : ps ≠ []) :
    is_border_line ps = true ↔ lineVar ps < 225 ∧ lineMean ps < 80 := by
  have hn : 0 < ps.length := List.length_pos.mpr hne
  have hnq : (0 : ℚ) < (ps.length : ℚ) := by exact_mod_cast hn
  set a : ℚ := (ps.map (fun (v : Nat) => (v : ℚ))).sum with ha
  set b : ℚ := (ps.map (fun (v : Nat) => (v : ℚ) * v)).sum with hb
  set n : ℚ := (ps.length : ℚ) with hnd
  have hvar : lineVar ps = (b - a ^ 2 / n) / n := by
    unfold lineVar
    rw [sum_sq_dev]
    unfold lineMean
    rw [← ha, ← hnd]
    field_simp
    ring
  have hmean : lineMean ps = a / n := by
    unfold lineMean
    rw [← ha, ← hnd]
  have hkey : lineVar ps * n ^ 2 = n * b - a ^ 2 := by
    rw [hvar]
    field_simp
    ring
  have hn2 : (0 : ℚ) < n ^ 2 := by positivity
  have hvarIff : lineVar ps < 225 ↔ n * b < a ^ 2 + 225 * n ^ 2 := by
    constructor
    · intro h
      have h3 : lineVar ps * n ^ 2 < 225 * n ^ 2 := by nlinarith
      rw [hkey] at h3
      linarith
    · intro h
      have h3 : lineVar ps * n ^ 2 < 225 * n ^ 2 := by
        rw [hkey]
        linarith
      exact lt_of_mul_lt_mul_right h3 (le_of_lt hn2)
  have hmeanIff : lineMean ps < 80 ↔ a < 80 * n := by
    rw [hmean, div_lt_iff₀ hnq]
  have hb' : b = (((ps.map (fun v => v * v)).sum : Nat) : ℚ) := (cast_sum_sq ps).symm
  have ha' : a = ((ps.sum : Nat) : ℚ) := (cast_sum ps).symm
  unfold is_border_line
  rw [Bool.and_eq_true, decide_eq_true_eq, decide_eq_true_eq,
    hvarIff, hmeanIff, hb', ha', hnd]
  constructor
  · intro ⟨h1, h2⟩
    exact ⟨by exact_mod_cast h1, by exact_mod_cast h2⟩
  · intro ⟨h1, h2⟩
    exact ⟨by exact_mod_cast h1, by exact_mod_cast h2⟩

theorem getD_topRowsW (gray : Img) (mbw i : Nat) (hi : i < min mbw (imgH gray)) :
    (topRowsW gray mbw).getD i [] = gray.getD i [] :=
  getD_map_range _ _ i [] hi

theorem getD_botRowsW (gray : Img) (mbw i : Nat)
    (hi : i < (imgH gray - 1) - (imgH gray - mbw - 1)) :
    (botRowsW gray mbw).getD i [] = gray.getD (imgH gray - 1 - i) [] := by
  unfold botRowsW botRange
  rw [List.map_map]
  exact getD_map_range _ _ i [] hi

theorem getD_leftColsW (gray : Img) (mbw i : Nat) (hi : i < min mbw (imgW gray)) :
    (leftColsW gray mbw).getD i [] = colOf gray i :=
  getD_map_range _ _ i [] hi

theorem getD_rightColsW (gray : Img) (mbw i : Nat)
    (hi : i < (imgW gray - 1) - (imgW gray - mbw - 1)) :
    (rightColsW gray mbw).getD i [] = colOf gray (imgW gray - 1 - i) := by
  unfold rightColsW botRange
  rw [List.map_map]
  exact getD_map_range _ _ i [] hi

theorem imgH_cvtGray (image : CImg) : imgH (cvtGray image) = imgH image := by
  simp [cvtGray, imgH]

theorem imgW_cvtGray (image : CImg) (h : 0 < imgH image) :
    imgW (cvtGray image) = imgW image := by
  cases image with
  | nil => simp [imgH] at h
  | cons r rest => simp [cvtGray, imgW]

/-- C9 (amended).  For cell images at least 20×20 (smaller images are
returned untouched), `remove_frame_borders` classifies a line as a border
exactly when its standard deviation is below 15 (variance below 225) and its
mean is below 80; it scans each edge inward across at most
`max_border_width = 5` lines, stopping at the first non-border line; every
cropped line is a confirmed border line and (within the scan window) the
first kept line failed the test; the image is returned unchanged when no
line on any edge qualifies. -/
theorem C9_border_stripper (image : CImg)
    (hh : 20 ≤ imgH image) (hw : 20 ≤ imgW image) :
    (∀ ps : List Nat, ps ≠ [] →
      (is_border_line ps = true ↔ lineVar ps < 225 ∧ lineMean ps < 80)) ∧
    (remove_frame_borders image =
      if 0 < borderCount (topRowsW (cvtGray image) 5) ∨
          0 < borderCount (botRowsW (cvtGray image) 5) ∨
          0 < borderCount (leftColsW (cvtGray image) 5) ∨
          0 < borderCount (rightColsW (cvtGray image) 5) then
        cropRect image (borderCount (topRowsW (cvtGray image) 5))
          (imgH image - borderCount (botRowsW (cvtGray image) 5))
          (borderCount (leftColsW (cvtGray image) 5))
          (imgW image - borderCount (rightColsW (cvtGray image) 5))
      else image) ∧
    (borderCount (topRowsW (cvtGray image) 5) ≤ 5 ∧
      borderCount (botRowsW (cvtGray image) 5) ≤ 5 ∧
      borderCount (leftColsW (cvtGray image) 5) ≤ 5 ∧
      borderCount (rightColsW (cvtGray image) 5) ≤ 5) ∧
    ((∀ i, i < borderCount (topRowsW (cvtGray image) 5) →
        is_border_line ((cvtGray image).getD i []) = true) ∧
      (borderCount (topRowsW (cvtGray image) 5) < 5 →
        is_border_line ((cvtGray image).getD
          (borderCount (topRowsW (cvtGray image) 5)) []) = false)) ∧
    ((∀ i, i < borderCount (botRowsW (cvtGray image) 5) →
        is_border_line ((cvtGray image).getD (imgH image - 1 - i) []) = true) ∧
      (borderCount (botRowsW (cvtGray image) 5) < 5 →
        is_border_line ((cvtGray image).getD
          (imgH image - 1 - borderCount (botRowsW (cvtGray image) 5)) []) =
          false)) ∧
    ((∀ i, i < borderCount (leftColsW (cvtGray image) 5) →
        is_border_line (colOf (cvtGray image) i) = true) ∧
      (borderCount (leftColsW (cvtGray image) 5) < 5 →
        is_border_line (colOf (cvtGray image)
          (borderCount (leftColsW (cvtGray image) 5))) = false)) ∧
    ((∀ i, i < borderCount (rightColsW (cvtGray image) 5) →
        is_border_line (colOf (cvtGray image) (imgW image - 1 - i)) = true) ∧
      (borderCount (rightColsW (cvtGray image) 5) < 5 →
        is_border_line (colOf (cvtGray image)
          (imgW image - 1 - borderCount (rightColsW (cvtGray image) 5))) =
          false)) := by
  have hgh : imgH (cvtGray image) = imgH image := imgH_cvtGray image
  have hgw : imgW (cvtGray image) = imgW image := imgW_cvtGray image (by omega)
  have htlen : (topRowsW (cvtGray image) 5).length = 5 := by
    simp only [topRowsW, List.length_map, List.length_range]
    omega
  have hblen : (botRowsW (cvtGray image) 5).length = 5 := by
    simp only [botRowsW, botRange, List.length_map, List.length_range]
    omega
  have hllen : (leftColsW (cvtGray image) 5).length = 5 := by
    simp only [leftColsW, List.length_map, List.length_range]
    omega
  have hrlen : (rightColsW (cvtGray image) 5).length = 5 := by
    simp only [rightColsW, botRange, List.length_map, List.length_range]
    omega
  have ht5 : borderCount (topRowsW (cvtGray image) 5) ≤ 5 := by
    have := takeWhile_len_le is_border_line (topRowsW (cvtGray image) 5)
    unfold borderCount
    omega
  have hb5 : borderCount (botRowsW (cvtGray image) 5) ≤ 5 := by
    have := takeWhile_len_le is_border_line (botRowsW (cvtGray image) 5)
    unfold borderCount
    omega
  have hl5 : borderCount (leftColsW (cvtGray image) 5) ≤ 5 := by
    have := takeWhile_len_le is_border_line (leftColsW (cvtGray image) 5)
    unfold borderCount
    omega
  have hr5 : borderCount (rightColsW (cvtGray image) 5) ≤ 5 := by
    have := takeWhile_len_le is_border_line (rightColsW (cvtGray image) 5)
    unfold borderCount
    omega
  have e1 : borderCount (topRowsW (cvtGray image) 5) =
      (List.takeWhile is_border_line (topRowsW (cvtGray image) 5)).length := rfl
  have e2 : borderCount (botRowsW (cvtGray image) 5) =
      (List.takeWhile is_border_line (botRowsW (cvtGray image) 5)).length := rfl
  have e3 : borderCount (leftColsW (cvtGray image) 5) =
      (List.takeWhile is_border_line (leftColsW (cvtGray image) 5)).length := rfl
  have e4 : borderCount (rightColsW (cvtGray image) 5) =
      (List.takeWhile is_border_line (rightColsW (cvtGray image) 5)).length := rfl
  refine ⟨fun ps hne => is_border_line_iff ps hne, ?_, ⟨ht5, hb5, hl5, hr5⟩,
    ⟨?_, ?_⟩, ⟨?_, ?_⟩, ⟨?_, ?_⟩, ⟨?_, ?_⟩⟩
  · unfold remove_frame_borders
    rw [if_neg (by omega)]
    exact if_congr (by constructor <;> intro h <;> omega) rfl rfl
  · intro i hi
    have := takeWhile_getD_true is_border_line [] (topRowsW (cvtGray image) 5) i
      (by omega)
    rwa [getD_topRowsW _ _ _ (by omega)] at this
  · intro hlt
    have hstop := takeWhile_getD_stop is_border_line []
      (topRowsW (cvtGray image) 5) (by omega)
    rw [e1]
    rwa [getD_topRowsW _ _ _ (by omega)] at hstop
  · intro i hi
    have := takeWhile_getD_true is_border_line [] (botRowsW (cvtGray image) 5) i
      (by omega)
    rwa [getD_botRowsW _ _ _ (by omega), hgh] at this
  · intro hlt
    have hstop := takeWhile_getD_stop is_border_line []
      (botRowsW (cvtGray image) 5) (by omega)
    rw [e2]
    rwa [getD_botRowsW _ _ _ (by omega), hgh] at hstop
  · intro i hi
    have := takeWhile_getD_true is_border_line [] (leftColsW (cvtGray image) 5) i
      (by omega)
    rwa [getD_leftColsW _ _ _ (by omega)] at this
  · intro hlt
    have hstop := takeWhile_getD_stop is_border_line []
      (leftColsW (cvtGray image) 5) (by omega)
    rw [e3]
    rwa [getD_leftColsW _ _ _ (by omega)] at hstop
  · intro i hi
    have := takeWhile_getD_true is_border_line [] (rightColsW (cvtGray image) 5) i
      (by omega)
    rwa [getD_rightColsW _ _ _ (by omega), hgw] at this
  · intro hlt
    have hstop := takeWhile_getD_stop is_border_line []
      (rightColsW (cvtGray image) 5) (by omega)
    rw [e4]
    rwa [getD_rightColsW _ _ _ (by omega), hgw] at hstop

/-- A 10×30 cell whose top row is a uniform dark border line. -/
def c9img : CImg :=
  List.replicate 30 ((0 : Nat), (0 : Nat), (0 : Nat)) ::
    List.replicate 9 (List.replicate 30 ((200 : Nat), (200 : Nat), (200 : Nat)))

/-- C9 counterexample to the claim as stated: the top row of this 10×30 cell
is a uniform dark line (std 0 < 15, mean 0 < 80), so by the claim it should
be scanned and cropped away; but the source returns any image with a side
below 20 px unchanged without scanning, so the qualifying border row is
kept. -/
theorem C9_counterexample :
    is_border_line ((cvtGray c9img).getD 0 []) = true ∧
      remove_frame_borders c9img = c9img ∧ imgH c9img = 10 := by
  refine ⟨by decide, ?_, by decide⟩
  unfold remove_frame_borders
  rw [if_pos (by decide)]

/-- The all-dark 20×20 cell of the C9 witness. -/
def c9dark : CImg :=
  List.replicate 20 (List.replicate 20 ((0 : Nat), (0 : Nat), (0 : Nat)))

/-- Witness for C9 at a 20×20 all-dark cell: each edge scan confirms the
full 5-line window. -/
theorem C9_border_stripper_witness :
    borderCount (topRowsW (cvtGray c9dark) 5) ≤ 5 ∧
      borderCount (botRowsW (cvtGray c9dark) 5) ≤ 5 ∧
      borderCount (leftColsW (cvtGray c9dark) 5) ≤ 5 ∧
      borderCount (rightColsW (cvtGray c9dark) 5) ≤ 5 :=
  (C9_border_stripper c9dark (by decide) (by decide)).2.2.1

end Zerograft
